import Mathlib

/-!
# Verification of the ma-QAOA core (qaoa_core.py, src/analytical.py, src/optimization.py)

Shallow embedding of the computation engine of the ma-QAOA repository:

* the state-evolution engine of `qaoa_core.py` (`apply_uc`,
  `apply_unitary_one_qubit`, `apply_ub_individual`, `calc_expectation_diagonal`,
  `run_ma_qaoa_simulation`, `convert_angles_qaoa_to_multi_angle`,
  `run_qaoa_simulation`);
* the closed-form depth-1 evaluators of `qaoa_core.py` /
  `src/analytical.py` (`run_ma_qaoa_analytical_p1`,
  `calc_expectation_ma_qaoa_analytical_p1`,
  `calc_expectation_general_analytical_z1` and its reduced variant);
* the two optimization drivers (`optimize_qaoa_angles` in `qaoa_core.py`
  and in `src/optimization.py`).

Machine floats are modelled by real numbers; quantum amplitudes by complex
numbers.  A basis label of an `n`-qubit problem is represented by its vector
of binary digits (`Fin n → Bool`): per the spec, "index = integer basis label
whose binary digits are qubit values", so this representation is exactly the
information content of an integer label `0 ≤ ℓ < 2^n`.

The basis-index provider (`preprocessing.py`: `get_neighbour_labelings`,
`get_all_binary_labelings`, `check_edge_cut`) and the small graph helper
`get_index_edge_list` (`src/graph_utils.py`) are not part of the sources;
they are modelled from the spec where needed, each such definition is
marked `Modelled from the spec`.
-/

namespace MaQaoa

noncomputable section

/-- A basis label of an `n`-qubit system, represented by its binary digits
(qubit `q` has value `x q` in label `x`). -/
abbrev Basis (n : ℕ) := Fin n → Bool

/-- Modelled from the spec: the neighbour table produced by
`get_neighbour_labelings` (missing `preprocessing.py`).  Spec §3: "entry
(label, qubit) = label with that qubit's bit flipped".  `flipAt q` is the
column of the table for qubit `q`, as a function on labels. -/
def flipAt {n : ℕ} (q : Fin n) (x : Basis n) : Basis n :=
  Function.update x q (!x q)

/-- Modelled from the spec: the bit-value table produced by
`get_all_binary_labelings` (missing `preprocessing.py`).  Spec §3: "entry
(label, qubit) = that qubit's value in label".  `bitAt q` is the column of
the table for qubit `q`. -/
def bitAt {n : ℕ} (q : Fin n) (x : Basis n) : Fin 2 :=
  if x q then 1 else 0

/-- Modelled from the spec: `check_edge_cut` (missing `preprocessing.py`).
Spec §6: "a function evaluating a single edge's cut-indicator value at a
given basis label". -/
def check_edge_cut {n : ℕ} (x : Basis n) (u v : Fin n) : ℝ :=
  if x u ≠ x v then 1 else 0

/-- `apply_uc` (qaoa_core.py:16).  Applies the diagonal phase unitary: the
state is multiplied pointwise by `∏ i, exp(-I * gammas[i] * all_cuv_vals[i, x])`.
The rows of `all_cuv_vals` are given as functions from basis labels to the
real diagonal values.  The Python `math.prod` over `range(len(gammas))` is a
product of the factors for `i < len gammas`; multiplication of complex
numbers is commutative, so a `Finset.range` product represents it. -/
def apply_uc {n : ℕ} (all_cuv_vals : List (Basis n → ℝ)) (gammas : List ℝ)
    (psi : Basis n → ℂ) : Basis n → ℂ :=
  fun x =>
    (∏ i ∈ Finset.range gammas.length,
      Complex.exp (-Complex.I * (gammas.getD i 0) * (all_cuv_vals.getD i (fun _ => 0) x)))
    * psi x

/-- `get_exp_x` (qaoa_core.py:48): the one-qubit mixer matrix
`exp(-i*beta*X) = [[cos β, -i sin β], [-i sin β, cos β]]`. -/
def get_exp_x (beta : ℝ) : Matrix (Fin 2) (Fin 2) ℂ :=
  !![Real.cos beta, -Complex.I * Real.sin beta;
     -Complex.I * Real.sin beta, Real.cos beta]

/-- `apply_unitary_one_qubit` (qaoa_core.py:59).  The Python loop starts from
the zero vector and, for every source label `j`, adds
`psi[j] * U[vals j, vals j]` into entry `j` and `psi[j] * U[1 - vals j, vals j]`
into entry `neighbours j`.  Since addition is commutative, entry `i` of the
result is the sum of all increments targeted at `i`: its own diagonal term
plus the off-diagonal contributions of all `j` with `neighbours j = i`. -/
def apply_unitary_one_qubit {n : ℕ} (unitary : Matrix (Fin 2) (Fin 2) ℂ)
    (psi : Basis n → ℂ) (target_neighbours : Basis n → Basis n)
    (target_vals : Basis n → Fin 2) : Basis n → ℂ :=
  fun i =>
    psi i * unitary (target_vals i) (target_vals i) +
    ∑ j ∈ Finset.univ.filter (fun j => target_neighbours j = i),
      psi j * unitary (1 - target_vals j) (target_vals j)

/-- `apply_ub_individual` (qaoa_core.py:76): applies the one-qubit mixer
`get_exp_x (betas[q])` for each qubit `q = 0, …, n-1` in order, using column
`q` of the neighbour table and of the bit-value table.  A missing angle
(`betas` shorter than `n`) is read as `0` (the Python code would fault there;
all uses below stay in bounds). -/
def apply_ub_individual {n : ℕ} (betas : List ℝ) (psi : Basis n → ℂ)
    (neighbours : Fin n → Basis n → Basis n)
    (basis_bin : Fin n → Basis n → Fin 2) : Basis n → ℂ :=
  (List.finRange n).foldl
    (fun acc q =>
      apply_unitary_one_qubit (get_exp_x (betas.getD q.val 0)) acc (neighbours q) (basis_bin q))
    psi

/-- `calc_expectation_diagonal` (qaoa_core.py:94):
`np.real(np.vdot(psi, diagonal_vals * psi))`. -/
def calc_expectation_diagonal {n : ℕ} (psi : Basis n → ℂ) (diagonal_vals : Basis n → ℝ) : ℝ :=
  (∑ x : Basis n, (starRingEnd ℂ) (psi x) * ((diagonal_vals x : ℂ) * psi x)).re

/-- The uniform superposition `np.ones(2^n) / np.sqrt(2^n)`
(qaoa_core.py:119). -/
def uniformState (n : ℕ) : Basis n → ℂ :=
  fun _ => ((Real.sqrt (2 ^ n) : ℝ) : ℂ)⁻¹

/-- One layer of `run_ma_qaoa_simulation` (qaoa_core.py:121-126): slice the
angle vector (`num_angles_per_layer = int(len(angles) / p)`, layer `i` is
`angles[i*npl:(i+1)*npl]`, its first `num_edges` entries are the gammas and
the rest the betas), then apply the phase layer and the mixer layer. -/
def simLayer {n : ℕ} (angles : List ℝ) (p : ℕ) (all_cuv_vals : List (Basis n → ℝ))
    (neighbours : Fin n → Basis n → Basis n) (basis_bin : Fin n → Basis n → Fin 2)
    (psi : Basis n → ℂ) (i : ℕ) : Basis n → ℂ :=
  let npl := angles.length / p
  let layer_angles := (angles.drop (i * npl)).take npl
  let gammas := layer_angles.take all_cuv_vals.length
  let betas := layer_angles.drop all_cuv_vals.length
  apply_ub_individual betas (apply_uc all_cuv_vals gammas psi) neighbours basis_bin

/-- The state of `run_ma_qaoa_simulation` after its first `k` loop
iterations, starting from the uniform superposition. -/
def simStateAfter {n : ℕ} (angles : List ℝ) (p : ℕ) (all_cuv_vals : List (Basis n → ℝ))
    (neighbours : Fin n → Basis n → Basis n) (basis_bin : Fin n → Basis n → Fin 2)
    (k : ℕ) : Basis n → ℂ :=
  (List.range k).foldl
    (simLayer angles p all_cuv_vals neighbours basis_bin)
    (uniformState n)

/-- `run_ma_qaoa_simulation` (qaoa_core.py:104): run `p` layers from the
uniform superposition and return the expectation of the sum of the rows of
`all_cuv_vals` selected by `edge_inds` (all rows when `edge_inds` is
`none`). -/
def run_ma_qaoa_simulation {n : ℕ} (angles : List ℝ) (p : ℕ)
    (all_cuv_vals : List (Basis n → ℝ))
    (neighbours : Fin n → Basis n → Basis n) (basis_bin : Fin n → Basis n → Fin 2)
    (edge_inds : Option (List ℕ) := none) : ℝ :=
  let inds := edge_inds.getD (List.range all_cuv_vals.length)
  calc_expectation_diagonal
    (simStateAfter angles p all_cuv_vals neighbours basis_bin p)
    (fun x => (inds.map (fun i => all_cuv_vals.getD i (fun _ => 0) x)).sum)

/-- `convert_angles_qaoa_to_multi_angle` (qaoa_core.py:130): for each pair
`(gamma, beta)` of consecutive angles, emit `gamma` repeated `num_edges`
times followed by `beta` repeated `num_nodes` times.  Python's
`zip(angles[::2], angles[1::2])` drops an unpaired trailing element. -/
def convert_angles_qaoa_to_multi_angle : List ℝ → ℕ → ℕ → List ℝ
  | g :: b :: rest, num_edges, num_nodes =>
      List.replicate num_edges g ++ List.replicate num_nodes b ++
        convert_angles_qaoa_to_multi_angle rest num_edges num_nodes
  | [_], _, _ => []
  | [], _, _ => []

/-- `run_qaoa_simulation` (qaoa_core.py:145): expand the standard 2-angle
layout and delegate to `run_ma_qaoa_simulation`. -/
def run_qaoa_simulation {n : ℕ} (angles : List ℝ) (p : ℕ)
    (all_cuv_vals : List (Basis n → ℝ))
    (neighbours : Fin n → Basis n → Basis n) (basis_bin : Fin n → Basis n → Fin 2)
    (edge_inds : Option (List ℕ) := none) : ℝ :=
  run_ma_qaoa_simulation
    (convert_angles_qaoa_to_multi_angle angles all_cuv_vals.length n)
    p all_cuv_vals neighbours basis_bin edge_inds

/-! ## Properties of the canonical (spec-modelled) basis-index tables -/

lemma flipAt_apply {n : ℕ} (q : Fin n) (x : Basis n) (j : Fin n) :
    flipAt q x j = if j = q then !x q else x j :=
  Function.update_apply x q (!x q) j

lemma flipAt_involutive {n : ℕ} (q : Fin n) : Function.Involutive (flipAt q) := by
  intro x
  funext j
  by_cases h : j = q <;> simp [flipAt_apply, h]

lemma bitAt_flipAt_self {n : ℕ} (q : Fin n) (x : Basis n) :
    bitAt q (flipAt q x) = 1 - bitAt q x := by
  by_cases h : x q <;> simp [bitAt, flipAt_apply, h]

lemma bitAt_flipAt_other {n : ℕ} (q r : Fin n) (x : Basis n) (h : q ≠ r) :
    bitAt q (flipAt r x) = bitAt q x := by
  simp [bitAt, flipAt_apply, h]

lemma bitAt_injective {n : ℕ} (x y : Basis n)
    (h : ∀ q, bitAt q x = bitAt q y) : x = y := by
  funext q
  have hq := h q
  by_cases hx : x q <;> by_cases hy : y q <;> simp_all [bitAt]

/-! ## Closed form of the one-qubit mixer step -/

lemma get_exp_x_diag (beta : ℝ) (v : Fin 2) :
    get_exp_x beta v v = (Real.cos beta : ℂ) := by
  fin_cases v <;> simp [get_exp_x]

lemma get_exp_x_off_diag (beta : ℝ) (v : Fin 2) :
    get_exp_x beta (1 - v) v = -Complex.I * (Real.sin beta : ℂ) := by
  fin_cases v <;> simp [get_exp_x]

lemma filter_neighbours_eq_singleton {n : ℕ} (σ : Basis n → Basis n)
    (hσ : Function.Involutive σ) (i : Basis n) :
    Finset.univ.filter (fun j => σ j = i) = {σ i} := by
  ext j
  simp only [Finset.mem_filter, Finset.mem_univ, true_and, Finset.mem_singleton]
  constructor
  · intro h
    rw [← h, hσ j]
  · intro h
    rw [h, hσ i]

/-- On an involutive neighbour column, the accumulation loop of
`apply_unitary_one_qubit` with the matrix `get_exp_x beta` computes
`cos β · ψ(i) - i sin β · ψ(flip i)` (the bit-value column only selects
between equal matrix entries, so it drops out). -/
lemma apply_unitary_exp_x_apply {n : ℕ} (beta : ℝ) (psi : Basis n → ℂ)
    (σ : Basis n → Basis n) (vals : Basis n → Fin 2)
    (hσ : Function.Involutive σ) (i : Basis n) :
    apply_unitary_one_qubit (get_exp_x beta) psi σ vals i
      = (Real.cos beta : ℂ) * psi i + -Complex.I * (Real.sin beta : ℂ) * psi (σ i) := by
  unfold apply_unitary_one_qubit
  rw [filter_neighbours_eq_singleton σ hσ, Finset.sum_singleton,
    get_exp_x_diag, get_exp_x_off_diag]
  ring

/-! ## Norm preservation (claim C2 machinery) -/

lemma normSq_rot_pair (c s : ℝ) (h : c ^ 2 + s ^ 2 = 1) (a b : ℂ) :
    Complex.normSq ((c : ℂ) * a + -Complex.I * (s : ℂ) * b)
      + Complex.normSq ((c : ℂ) * b + -Complex.I * (s : ℂ) * a)
      = Complex.normSq a + Complex.normSq b := by
  simp only [Complex.normSq_apply, Complex.add_re, Complex.add_im, Complex.mul_re,
    Complex.mul_im, Complex.neg_re, Complex.neg_im, Complex.I_re, Complex.I_im,
    Complex.ofReal_re, Complex.ofReal_im]
  nlinarith [h]

lemma sum_normSq_apply_unitary_exp_x {n : ℕ} (beta : ℝ) (psi : Basis n → ℂ)
    (σ : Basis n → Basis n) (vals : Basis n → Fin 2)
    (hσ : Function.Involutive σ) :
    ∑ i : Basis n, Complex.normSq (apply_unitary_one_qubit (get_exp_x beta) psi σ vals i)
      = ∑ i : Basis n, Complex.normSq (psi i) := by
  have hcs : Real.cos beta ^ 2 + Real.sin beta ^ 2 = 1 := Real.cos_sq_add_sin_sq beta
  set S := fun i => Complex.normSq (apply_unitary_one_qubit (get_exp_x beta) psi σ vals i)
    with hS
  have key : ∀ i : Basis n, S i + S (σ i) = Complex.normSq (psi i) + Complex.normSq (psi (σ i)) := by
    intro i
    rw [hS]
    simp only
    rw [apply_unitary_exp_x_apply beta psi σ vals hσ, apply_unitary_exp_x_apply beta psi σ vals hσ,
      hσ i]
    exact normSq_rot_pair _ _ hcs _ _
  have hperm : ∀ f : Basis n → ℝ, ∑ i : Basis n, f (σ i) = ∑ i : Basis n, f i := by
    intro f
    exact Equiv.sum_comp (Function.Involutive.toPerm σ hσ) f
  have hdouble : (∑ i : Basis n, S i) + (∑ i : Basis n, S (σ i))
      = (∑ i : Basis n, Complex.normSq (psi i)) + (∑ i : Basis n, Complex.normSq (psi (σ i))) := by
    rw [← Finset.sum_add_distrib, ← Finset.sum_add_distrib]
    exact Finset.sum_congr rfl (fun i _ => key i)
  rw [hperm S, hperm (fun i => Complex.normSq (psi i))] at hdouble
  linarith

lemma sum_normSq_mix_foldl {n : ℕ} (L : List (Fin n)) (betas : List ℝ)
    (neighbours : Fin n → Basis n → Basis n) (basis_bin : Fin n → Basis n → Fin 2)
    (hinv : ∀ q, Function.Involutive (neighbours q)) (psi : Basis n → ℂ) :
    ∑ i : Basis n, Complex.normSq
      ((L.foldl (fun acc q =>
        apply_unitary_one_qubit (get_exp_x (betas.getD q.val 0)) acc (neighbours q) (basis_bin q))
        psi) i)
      = ∑ i : Basis n, Complex.normSq (psi i) := by
  induction L generalizing psi with
  | nil => rfl
  | cons q L ih =>
      rw [List.foldl_cons, ih]
      exact sum_normSq_apply_unitary_exp_x _ _ _ _ (hinv q)

lemma sum_normSq_apply_ub_individual {n : ℕ} (betas : List ℝ) (psi : Basis n → ℂ)
    (neighbours : Fin n → Basis n → Basis n) (basis_bin : Fin n → Basis n → Fin 2)
    (hinv : ∀ q, Function.Involutive (neighbours q)) :
    ∑ i : Basis n, Complex.normSq (apply_ub_individual betas psi neighbours basis_bin i)
      = ∑ i : Basis n, Complex.normSq (psi i) :=
  sum_normSq_mix_foldl (List.finRange n) betas neighbours basis_bin hinv psi

lemma normSq_apply_uc {n : ℕ} (all_cuv_vals : List (Basis n → ℝ)) (gammas : List ℝ)
    (psi : Basis n → ℂ) (x : Basis n) :
    Complex.normSq (apply_uc all_cuv_vals gammas psi x) = Complex.normSq (psi x) := by
  unfold apply_uc
  rw [map_mul]
  have hone : Complex.normSq
      (∏ i ∈ Finset.range gammas.length,
        Complex.exp (-Complex.I * (gammas.getD i 0) * (all_cuv_vals.getD i (fun _ => 0) x))) = 1 := by
    rw [map_prod]
    apply Finset.prod_eq_one
    intro i _
    rw [show -Complex.I * (gammas.getD i 0 : ℂ) * (all_cuv_vals.getD i (fun _ => 0) x : ℂ)
        = ((-(gammas.getD i 0 * all_cuv_vals.getD i (fun _ => 0) x) : ℝ) : ℂ) * Complex.I by
      push_cast
      ring]
    rw [Complex.normSq_eq_abs, Complex.abs_exp_ofReal_mul_I]
    norm_num
  rw [hone, one_mul]

lemma sum_normSq_uniform (n : ℕ) :
    ∑ x : Basis n, Complex.normSq (uniformState n x) = 1 := by
  unfold uniformState
  rw [Finset.sum_const, Finset.card_univ]
  have hcard : Fintype.card (Basis n) = 2 ^ n := by
    rw [Fintype.card_fun]
    simp
  have hpos : (0 : ℝ) ≤ 2 ^ n := by positivity
  rw [hcard, map_inv₀, Complex.normSq_ofReal, Real.mul_self_sqrt hpos, nsmul_eq_mul]
  have h0 : ((2 : ℝ) ^ n) ≠ 0 := by positivity
  push_cast
  field_simp

lemma sum_normSq_simStateAfter {n : ℕ} (angles : List ℝ) (p : ℕ)
    (all_cuv_vals : List (Basis n → ℝ))
    (neighbours : Fin n → Basis n → Basis n) (basis_bin : Fin n → Basis n → Fin 2)
    (hinv : ∀ q, Function.Involutive (neighbours q)) (k : ℕ) :
    ∑ x : Basis n,
      Complex.normSq (simStateAfter angles p all_cuv_vals neighbours basis_bin k x) = 1 := by
  induction k with
  | zero => exact sum_normSq_uniform n
  | succ k ih =>
      unfold simStateAfter at ih ⊢
      rw [List.range_succ, List.foldl_append, List.foldl_cons, List.foldl_nil]
      have hstep : ∀ ψ : Basis n → ℂ,
          (∑ x : Basis n,
            Complex.normSq (simLayer angles p all_cuv_vals neighbours basis_bin ψ k x))
            = ∑ x : Basis n, Complex.normSq (ψ x) := by
        intro ψ
        simp only [simLayer]
        rw [sum_normSq_apply_ub_individual _ _ _ _ hinv]
        exact Finset.sum_congr rfl (fun x _ => normSq_apply_uc _ _ _ _)
      rw [hstep, ih]

/-- C2: for every real angle vector of the expected length, every `p ≥ 1` and
valid neighbour/bit-value/term tables, the state vector of
`run_ma_qaoa_simulation` — uniform superposition followed by `p` layers of
`apply_uc` then `apply_ub_individual` — has Euclidean norm exactly 1 after
every layer and at the end (so in particular within 1e-9 of 1; machine
floats are modelled by exact reals). -/
theorem C2_simulation_preserves_norm {n : ℕ} (angles : List ℝ) (p : ℕ)
    (all_cuv_vals : List (Basis n → ℝ))
    (neighbours : Fin n → Basis n → Basis n) (basis_bin : Fin n → Basis n → Fin 2)
    (hp : 1 ≤ p) (hlen : angles.length = (all_cuv_vals.length + n) * p)
    (hinv : ∀ q, Function.Involutive (neighbours q))
    (hflip : ∀ q x, basis_bin q (neighbours q x) = 1 - basis_bin q x)
    (hother : ∀ q r x, q ≠ r → basis_bin q (neighbours r x) = basis_bin q x)
    (k : ℕ) (hk : k ≤ p) :
    ∑ x : Basis n,
      Complex.normSq (simStateAfter angles p all_cuv_vals neighbours basis_bin k x) = 1 :=
  sum_normSq_simStateAfter angles p all_cuv_vals neighbours basis_bin hinv k

/-- Witness for C2 at a concrete instance: one edge on two qubits, `p = 1`,
angles `[1, 2, 3]`, canonical tables. -/
theorem C2_simulation_preserves_norm_witness :
    (1 ≤ 1) ∧ ([(1 : ℝ), 2, 3].length = (([fun x : Basis 2 => check_edge_cut x 0 1]).length + 2) * 1) ∧
    (∀ q : Fin 2, Function.Involutive (flipAt q)) ∧
    (∀ (q : Fin 2) x, bitAt q (flipAt q x) = 1 - bitAt q x) ∧
    (∀ (q r : Fin 2) x, q ≠ r → bitAt q (flipAt r x) = bitAt q x) ∧
    (1 ≤ 1) ∧
    ∑ x : Basis 2,
      Complex.normSq (simStateAfter [(1 : ℝ), 2, 3] 1
        [fun x : Basis 2 => check_edge_cut x 0 1] flipAt bitAt 1 x) = 1 :=
  ⟨le_refl 1, by norm_num,
    fun q => flipAt_involutive q,
    fun q x => bitAt_flipAt_self q x,
    fun q r x h => bitAt_flipAt_other q r x h,
    le_refl 1,
    C2_simulation_preserves_norm [(1 : ℝ), 2, 3] 1
      [fun x : Basis 2 => check_edge_cut x 0 1] flipAt bitAt
      (le_refl 1) (by norm_num)
      (fun q => flipAt_involutive q)
      (fun q x => bitAt_flipAt_self q x)
      (fun q r x h => bitAt_flipAt_other q r x h)
      1 (le_refl 1)⟩

/-! ## Mixer invertibility (claim C8 machinery) -/

lemma mixer_step_comm_apply {n : ℕ} (β γ : ℝ) (psi : Basis n → ℂ)
    (σ₁ σ₂ : Basis n → Basis n) (v₁ v₂ : Basis n → Fin 2)
    (h₁ : Function.Involutive σ₁) (h₂ : Function.Involutive σ₂)
    (hc : σ₁ ∘ σ₂ = σ₂ ∘ σ₁) :
    apply_unitary_one_qubit (get_exp_x β)
        (apply_unitary_one_qubit (get_exp_x γ) psi σ₂ v₂) σ₁ v₁
      = apply_unitary_one_qubit (get_exp_x γ)
        (apply_unitary_one_qubit (get_exp_x β) psi σ₁ v₁) σ₂ v₂ := by
  have e₁ : ∀ (φ : Basis n → ℂ) j, apply_unitary_one_qubit (get_exp_x β) φ σ₁ v₁ j
      = (Real.cos β : ℂ) * φ j + -Complex.I * (Real.sin β : ℂ) * φ (σ₁ j) :=
    fun φ j => apply_unitary_exp_x_apply β φ σ₁ v₁ h₁ j
  have e₂ : ∀ (φ : Basis n → ℂ) j, apply_unitary_one_qubit (get_exp_x γ) φ σ₂ v₂ j
      = (Real.cos γ : ℂ) * φ j + -Complex.I * (Real.sin γ : ℂ) * φ (σ₂ j) :=
    fun φ j => apply_unitary_exp_x_apply γ φ σ₂ v₂ h₂ j
  funext i
  simp only [e₁, e₂]
  have hx := congrFun hc i
  simp only [Function.comp_apply] at hx
  rw [← hx]
  ring

lemma mixer_step_neg_cancel {n : ℕ} (β : ℝ) (psi : Basis n → ℂ)
    (σ : Basis n → Basis n) (v : Basis n → Fin 2) (hσ : Function.Involutive σ) :
    apply_unitary_one_qubit (get_exp_x (-β))
        (apply_unitary_one_qubit (get_exp_x β) psi σ v) σ v = psi := by
  have e₁ : ∀ (φ : Basis n → ℂ) j, apply_unitary_one_qubit (get_exp_x β) φ σ v j
      = (Real.cos β : ℂ) * φ j + -Complex.I * (Real.sin β : ℂ) * φ (σ j) :=
    fun φ j => apply_unitary_exp_x_apply β φ σ v hσ j
  have e₂ : ∀ (φ : Basis n → ℂ) j, apply_unitary_one_qubit (get_exp_x (-β)) φ σ v j
      = (Real.cos (-β) : ℂ) * φ j + -Complex.I * (Real.sin (-β) : ℂ) * φ (σ j) :=
    fun φ j => apply_unitary_exp_x_apply (-β) φ σ v hσ j
  funext i
  simp only [e₂, e₁, Real.cos_neg, Real.sin_neg, Complex.ofReal_neg, hσ i]
  have h : ((Real.cos β : ℂ)) ^ 2 + ((Real.sin β : ℂ)) ^ 2 = 1 := by
    exact_mod_cast congrArg (fun r : ℝ => (r : ℂ)) (Real.cos_sq_add_sin_sq β)
  have h2 : Complex.I ^ 2 = -1 := Complex.I_sq
  linear_combination psi i * h - psi i * ((Real.sin β : ℂ)) ^ 2 * h2

lemma mix_foldl_comm {n : ℕ} (L : List (Fin n)) (a : Fin n → ℝ) (γ : ℝ) (q : Fin n)
    (neighbours : Fin n → Basis n → Basis n) (basis_bin : Fin n → Basis n → Fin 2)
    (hinv : ∀ r, Function.Involutive (neighbours r))
    (hcomm : ∀ r s, neighbours r ∘ neighbours s = neighbours s ∘ neighbours r)
    (φ : Basis n → ℂ) :
    L.foldl (fun acc r =>
        apply_unitary_one_qubit (get_exp_x (a r)) acc (neighbours r) (basis_bin r))
      (apply_unitary_one_qubit (get_exp_x γ) φ (neighbours q) (basis_bin q))
      = apply_unitary_one_qubit (get_exp_x γ)
        (L.foldl (fun acc r =>
          apply_unitary_one_qubit (get_exp_x (a r)) acc (neighbours r) (basis_bin r)) φ)
        (neighbours q) (basis_bin q) := by
  induction L generalizing φ with
  | nil => rfl
  | cons r L ih =>
      rw [List.foldl_cons, List.foldl_cons,
        mixer_step_comm_apply (a r) γ φ (neighbours r) (neighbours q) (basis_bin r) (basis_bin q)
          (hinv r) (hinv q) (hcomm r q),
        ih]

lemma mix_foldl_neg_cancel {n : ℕ} (L : List (Fin n)) (a : Fin n → ℝ)
    (neighbours : Fin n → Basis n → Basis n) (basis_bin : Fin n → Basis n → Fin 2)
    (hinv : ∀ r, Function.Involutive (neighbours r))
    (hcomm : ∀ r s, neighbours r ∘ neighbours s = neighbours s ∘ neighbours r)
    (psi : Basis n → ℂ) :
    L.foldl (fun acc r =>
        apply_unitary_one_qubit (get_exp_x (-(a r))) acc (neighbours r) (basis_bin r))
      (L.foldl (fun acc r =>
        apply_unitary_one_qubit (get_exp_x (a r)) acc (neighbours r) (basis_bin r)) psi)
      = psi := by
  induction L generalizing psi with
  | nil => rfl
  | cons q L ih =>
      rw [List.foldl_cons, List.foldl_cons,
        ← mix_foldl_comm L a (-(a q)) q neighbours basis_bin hinv hcomm
          (apply_unitary_one_qubit (get_exp_x (a q)) psi (neighbours q) (basis_bin q)),
        mixer_step_neg_cancel (a q) psi (neighbours q) (basis_bin q) (hinv q)]
      exact ih psi

/-- Spec §3 invariants of a valid neighbour/bit-value table pair (flipping
bit `q` changes exactly column `q`, and labels are identified with their
digit rows) force the per-qubit flips to commute. -/
lemma neighbours_comm_of_consistent {n : ℕ}
    (neighbours : Fin n → Basis n → Basis n) (basis_bin : Fin n → Basis n → Fin 2)
    (hflip : ∀ q x, basis_bin q (neighbours q x) = 1 - basis_bin q x)
    (hother : ∀ q r x, q ≠ r → basis_bin q (neighbours r x) = basis_bin q x)
    (hinj : ∀ x y, (∀ q, basis_bin q x = basis_bin q y) → x = y) :
    ∀ q r, neighbours q ∘ neighbours r = neighbours r ∘ neighbours q := by
  intro q r
  rcases eq_or_ne q r with rfl | hqr
  · rfl
  funext x
  simp only [Function.comp_apply]
  apply hinj
  intro j
  rcases eq_or_ne j q with rfl | hjq
  · rw [hflip j (neighbours r x), hother j r x hqr,
      hother j r (neighbours j x) hqr, hflip j x]
  rcases eq_or_ne j r with rfl | hjr
  · rw [hother j q (neighbours j x) hjq, hflip j x,
      hflip j (neighbours q x), hother j q x hjq]
  · rw [hother j q (neighbours r x) hjq, hother j r x hjr,
      hother j r (neighbours q x) hjr, hother j q x hjq]

lemma getD_map_neg (l : List ℝ) (i : ℕ) :
    (l.map (fun b => -b)).getD i 0 = -(l.getD i 0) := by
  induction l generalizing i with
  | nil => simp
  | cons x xs ih =>
      cases i with
      | zero => simp
      | succ i => simpa using ih i

/-- C8: applying the mixer layer `apply_ub_individual` with angles `betas`
and then again with angles `-betas` returns the amplitude vector to its
pre-mixer value, for every state, every real `betas`, and every involutive
neighbour table with a consistent bit-value table (the spec §3 invariants:
flipping bit `q` flips exactly column `q` of the bit-value table, and a
label is identified by its row of bit values). -/
theorem C8_mixer_rotation_invertible {n : ℕ} (betas : List ℝ) (psi : Basis n → ℂ)
    (neighbours : Fin n → Basis n → Basis n) (basis_bin : Fin n → Basis n → Fin 2)
    (hinv : ∀ q, Function.Involutive (neighbours q))
    (hflip : ∀ q x, basis_bin q (neighbours q x) = 1 - basis_bin q x)
    (hother : ∀ q r x, q ≠ r → basis_bin q (neighbours r x) = basis_bin q x)
    (hinj : ∀ x y, (∀ q, basis_bin q x = basis_bin q y) → x = y) :
    apply_ub_individual (betas.map (fun b => -b))
      (apply_ub_individual betas psi neighbours basis_bin) neighbours basis_bin = psi := by
  have hcomm := neighbours_comm_of_consistent neighbours basis_bin hflip hother hinj
  unfold apply_ub_individual
  simp only [getD_map_neg]
  exact mix_foldl_neg_cancel (List.finRange n) (fun q => betas.getD q.val 0)
    neighbours basis_bin hinv hcomm psi

/-- Witness for C8 at a concrete instance: one qubit, `betas = [π]`, the
constant-1 amplitude vector, canonical tables. -/
theorem C8_mixer_rotation_invertible_witness :
    (∀ q : Fin 1, Function.Involutive (flipAt q)) ∧
    (∀ (q : Fin 1) x, bitAt q (flipAt q x) = 1 - bitAt q x) ∧
    (∀ (q r : Fin 1) x, q ≠ r → bitAt q (flipAt r x) = bitAt q x) ∧
    (∀ x y : Basis 1, (∀ q, bitAt q x = bitAt q y) → x = y) ∧
    apply_ub_individual ([Real.pi].map (fun b => -b))
      (apply_ub_individual [Real.pi] ((fun _ => 1) : Basis 1 → ℂ) flipAt bitAt) flipAt bitAt
      = ((fun _ => 1) : Basis 1 → ℂ) :=
  ⟨fun q => flipAt_involutive q, fun q x => bitAt_flipAt_self q x,
    fun q r x h => bitAt_flipAt_other q r x h, fun x y h => bitAt_injective x y h,
    C8_mixer_rotation_invertible [Real.pi] ((fun _ => 1) : Basis 1 → ℂ) flipAt bitAt
      (fun q => flipAt_involutive q) (fun q x => bitAt_flipAt_self q x)
      (fun q r x h => bitAt_flipAt_other q r x h) (fun x y h => bitAt_injective x y h)⟩

/-! ## Silent truncation of the angle vector (claim C3) -/

lemma apply_ub_individual_congr {n : ℕ} (b₁ b₂ : List ℝ) (psi : Basis n → ℂ)
    (neighbours : Fin n → Basis n → Basis n) (basis_bin : Fin n → Basis n → Fin 2)
    (h : ∀ i : Fin n, b₁.getD i.val 0 = b₂.getD i.val 0) :
    apply_ub_individual b₁ psi neighbours basis_bin
      = apply_ub_individual b₂ psi neighbours basis_bin := by
  unfold apply_ub_individual
  apply List.foldl_ext
  intro acc q _
  rw [h q]

lemma simStateAfter_one {n : ℕ} (angles : List ℝ) (p : ℕ) (cuv : List (Basis n → ℝ))
    (neighbours : Fin n → Basis n → Basis n) (basis_bin : Fin n → Basis n → Fin 2) :
    simStateAfter angles p cuv neighbours basis_bin 1
      = simLayer angles p cuv neighbours basis_bin (uniformState n) 0 := by
  simp [simStateAfter, List.range_succ]

/-- C3 (code behaviour at the claim's failing input): on the single-edge
graph K2 (1 edge, 2 nodes, so a p = 1 angle vector must have
`num_terms + num_qubits = 3` entries), `run_ma_qaoa_simulation` called with
the ill-sized 4-entry angle vector `[a, b, c, d]` raises no error and
returns exactly the value it returns for `[a, b, c]`: the extra angle is
silently ignored (`num_angles_per_layer = int(len(angles)/p)` and array
slicing never validate the length), contradicting the spec's fail-fast
requirement. -/
theorem C3_oversized_angles_silently_ignored (a b c d : ℝ) :
    run_ma_qaoa_simulation [a, b, c, d] 1
        [fun x : Basis 2 => check_edge_cut x 0 1] flipAt bitAt none
      = run_ma_qaoa_simulation [a, b, c] 1
        [fun x : Basis 2 => check_edge_cut x 0 1] flipAt bitAt none := by
  have e1 : simLayer [a, b, c, d] 1 [fun x : Basis 2 => check_edge_cut x 0 1] flipAt bitAt
      (uniformState 2) 0
      = apply_ub_individual [b, c, d]
        (apply_uc [fun x : Basis 2 => check_edge_cut x 0 1] [a] (uniformState 2)) flipAt bitAt := by
    unfold simLayer
    norm_num
  have e2 : simLayer [a, b, c] 1 [fun x : Basis 2 => check_edge_cut x 0 1] flipAt bitAt
      (uniformState 2) 0
      = apply_ub_individual [b, c]
        (apply_uc [fun x : Basis 2 => check_edge_cut x 0 1] [a] (uniformState 2)) flipAt bitAt := by
    unfold simLayer
    norm_num
  have hst : simStateAfter [a, b, c, d] 1 [fun x : Basis 2 => check_edge_cut x 0 1] flipAt bitAt 1
      = simStateAfter [a, b, c] 1 [fun x : Basis 2 => check_edge_cut x 0 1] flipAt bitAt 1 := by
    rw [simStateAfter_one, simStateAfter_one, e1, e2]
    apply apply_ub_individual_congr
    intro i
    fin_cases i <;> rfl
  simp only [run_ma_qaoa_simulation]
  rw [hst]

/-! ## The MaxCut graph collaborator and the closed-form depth-1 evaluator -/

/-- The Graph collaborator (a weighted `networkx.Graph` on nodes `0..n-1`):
the ordered edge list (`graph.edges`), the parallel list of edge weights
(`'weight'` attributes), and the parallel list of per-edge `'gamma'`
attributes written by `nx.set_edge_attributes` (empty while the attribute
is unset). -/
structure MCGraph (n : ℕ) where
  edges : List (Fin n × Fin n)
  weights : List ℝ
  gammaAttr : List ℝ

/-- Position of the (undirected) edge `{u, v}` in the edge list, if present. -/
def edgeIndex {n : ℕ} (G : MCGraph n) (u v : Fin n) : Option ℕ :=
  G.edges.findIdx? (fun e => e == (u, v) || e == (v, u))

/-- `graph.edges[(u, v)]['weight']`. -/
def weightOf {n : ℕ} (G : MCGraph n) (u v : Fin n) : ℝ :=
  match edgeIndex G u v with
  | some i => G.weights.getD i 0
  | none => 0

/-- `graph.edges[(u, v)]['gamma']`. -/
def gammaOf {n : ℕ} (G : MCGraph n) (u v : Fin n) : ℝ :=
  match edgeIndex G u v with
  | some i => G.gammaAttr.getD i 0
  | none => 0

/-- `set(graph[u])`: the neighbourhood of node `u`. -/
def nbrs {n : ℕ} (G : MCGraph n) (u : Fin n) : Finset (Fin n) :=
  Finset.univ.filter (fun m => G.edges.any (fun e => e == (u, m) || e == (m, u)))

/-- `nx.set_edge_attributes(graph, {(u, v): gammas[i] * w for i, (u, v, w) in
enumerate(graph.edges.data('weight'))}, name='gamma')`
(qaoa_core.py:174 / src/analytical.py:54). -/
def setGammaAttr {n : ℕ} (G : MCGraph n) (gammas : List ℝ) : MCGraph n :=
  { G with gammaAttr :=
      (List.range G.edges.length).map (fun i => gammas.getD i 0 * G.weights.getD i 0) }

/-- `run_ma_qaoa_analytical_p1` (qaoa_core.py:160): the closed-form depth-1
MA-QAOA evaluator.  Mirrors the source line by line: split the angle vector
into gammas and betas, write the weight-scaled gammas onto the graph as the
`'gamma'` edge attribute, and accumulate the per-edge contribution
(`w/2`, triangle correction when `f ≠ ∅`, main `sin(gamma_uv)` term).
Returns the objective together with the graph as it is left after the call
(the Python function mutates its `graph` argument in place). -/
def run_ma_qaoa_analytical_p1 {n : ℕ} (angles : List ℝ) (graph : MCGraph n)
    (edge_list : Option (List (Fin n × Fin n)) := none) : ℝ × MCGraph n :=
  let edgeList := edge_list.getD graph.edges
  let gammas := angles.take graph.edges.length
  let betas := angles.drop graph.edges.length
  let G := setGammaAttr graph gammas
  let objective := (edgeList.map (fun uv =>
    let u := uv.1
    let v := uv.2
    let w := weightOf G u v
    let d := (nbrs G u).erase v
    let e := (nbrs G v).erase u
    let f := d ∩ e
    let cos_prod_d := ∏ m ∈ d \ f, Real.cos (gammaOf G u m)
    let cos_prod_e := ∏ m ∈ e \ f, Real.cos (gammaOf G v m)
    if f.card ≠ 0 then
      w / 2
        + w / 4 * Real.sin (2 * betas.getD u.val 0) * Real.sin (2 * betas.getD v.val 0)
          * cos_prod_d * cos_prod_e
          * ((∏ m ∈ f, Real.cos (gammaOf G u m + gammaOf G v m))
             - ∏ m ∈ f, Real.cos (gammaOf G u m - gammaOf G v m))
        + w / 2 * Real.sin (gammaOf G u v)
          * (Real.sin (2 * betas.getD u.val 0) * Real.cos (2 * betas.getD v.val 0)
              * (cos_prod_d * ∏ m ∈ f, Real.cos (gammaOf G u m))
            + Real.cos (2 * betas.getD u.val 0) * Real.sin (2 * betas.getD v.val 0)
              * (cos_prod_e * ∏ m ∈ f, Real.cos (gammaOf G v m)))
    else
      w / 2
        + w / 2 * Real.sin (gammaOf G u v)
          * (Real.sin (2 * betas.getD u.val 0) * Real.cos (2 * betas.getD v.val 0) * cos_prod_d
            + Real.cos (2 * betas.getD u.val 0) * Real.sin (2 * betas.getD v.val 0)
              * cos_prod_e))).sum
  (objective, G)

/-- `calc_expectation_ma_qaoa_analytical_p1` (src/analytical.py:40): the
`src/` copy of the depth-1 closed-form evaluator; its body is identical to
`run_ma_qaoa_analytical_p1` in qaoa_core.py. -/
def calc_expectation_ma_qaoa_analytical_p1 {n : ℕ} (angles : List ℝ) (graph : MCGraph n)
    (edge_list : Option (List (Fin n × Fin n)) := none) : ℝ × MCGraph n :=
  run_ma_qaoa_analytical_p1 angles graph edge_list

/-- `run_qaoa_analytical_p1` (qaoa_core.py:200): expand the standard 2-angle
layout by repetition and delegate. -/
def run_qaoa_analytical_p1 {n : ℕ} (angles : List ℝ) (graph : MCGraph n)
    (edge_list : Option (List (Fin n × Fin n)) := none) : ℝ × MCGraph n :=
  run_ma_qaoa_analytical_p1
    (convert_angles_qaoa_to_multi_angle angles graph.edges.length n) graph edge_list

/-! ## Frame effect of the closed-form evaluator (claim C5) -/

/-- C5 counterexample: on the single-edge graph (edge `(0,1)`, weight 1, no
`'gamma'` attribute yet) with angles `[1, 0, 0]`, the graph object after
`run_ma_qaoa_analytical_p1` returns differs from the input graph: the
scaled-gamma annotation was written onto the shared graph and persists
after the call. -/
theorem C5_graph_annotation_persists_counterexample :
    (run_ma_qaoa_analytical_p1 [1, 0, 0]
        (⟨[((0 : Fin 2), (1 : Fin 2))], [1], []⟩ : MCGraph 2) none).2
      ≠ (⟨[((0 : Fin 2), (1 : Fin 2))], [1], []⟩ : MCGraph 2) := by
  intro h
  have hg := congrArg MCGraph.gammaAttr h
  simp [run_ma_qaoa_analytical_p1, setGammaAttr] at hg

/-- C5 amended: a call to the closed-form evaluator leaves the nodes (the
type index), the edge list and the weights of the shared graph unchanged,
and its only effect on the graph is to overwrite the per-edge `'gamma'`
attribute with the weight-scaled gammas of this call — that annotation is
written to the shared graph object and persists after the call returns
(nothing removes it; it is only overwritten by the next invocation). -/
theorem C5_graph_frame_effect {n : ℕ} (angles : List ℝ) (graph : MCGraph n)
    (edge_list : Option (List (Fin n × Fin n))) :
    (run_ma_qaoa_analytical_p1 angles graph edge_list).2.edges = graph.edges ∧
    (run_ma_qaoa_analytical_p1 angles graph edge_list).2.weights = graph.weights ∧
    (run_ma_qaoa_analytical_p1 angles graph edge_list).2
      = setGammaAttr graph (angles.take graph.edges.length) :=
  ⟨rfl, rfl, rfl⟩

/-! ## The generalized Z1 analytical evaluator (claim C9) -/

/-- `calc_expectation_general_analytical_z1` (src/analytical.py:14).
`get_index_edge_list` (missing `src/graph_utils.py`) is modelled from the
spec as the graph's edge list as node-index pairs; `angles[edge]` /
`angles[edge + len(graph)]` is numpy fancy indexing, reading the per-node
gammas at positions `u, v` and the per-node betas at `u + n, v + n`. -/
def calc_expectation_general_analytical_z1 {n : ℕ} (angles : List ℝ) (graph : MCGraph n) : ℝ :=
  (graph.edges.length : ℝ) / 2
    - (graph.edges.map (fun uv =>
        Real.sin (2 * angles.getD (uv.1.val + n) 0) * Real.sin (2 * angles.getD (uv.2.val + n) 0)
          * Real.sin (2 * angles.getD uv.1.val 0) * Real.sin (2 * angles.getD uv.2.val 0)
          / 2)).sum

/-- `calc_expectation_general_analytical_z1_reduced` (src/analytical.py:29):
prepend `len(graph)` copies of `π/4` to the free angles and delegate. -/
def calc_expectation_general_analytical_z1_reduced {n : ℕ} (angles : List ℝ)
    (graph : MCGraph n) : ℝ :=
  calc_expectation_general_analytical_z1 (List.replicate n (Real.pi / 4) ++ angles) graph

/-- The claim's formula, written from the spec's words: `num_edges / 2`
minus the sum over edges `(u, v)` of
`sin(2 β_u) sin(2 β_v) sin(2 γ_u) sin(2 γ_v) / 2`. -/
def z1SpecFormula {n : ℕ} (gamma beta : Fin n → ℝ) (graph : MCGraph n) : ℝ :=
  (graph.edges.length : ℝ) / 2
    - (graph.edges.map (fun uv =>
        Real.sin (2 * beta uv.1) * Real.sin (2 * beta uv.2)
          * Real.sin (2 * gamma uv.1) * Real.sin (2 * gamma uv.2) / 2)).sum

lemma getD_replicate_of_lt (a : ℝ) (n k : ℕ) (h : k < n) :
    (List.replicate n a).getD k 0 = a := by
  induction n generalizing k with
  | zero => omega
  | succ n ih =>
      cases k with
      | zero => simp [List.replicate_succ]
      | succ k =>
          rw [List.replicate_succ, List.getD_cons_succ]
          exact ih k (by omega)

lemma getD_append_lo (l₁ l₂ : List ℝ) (k : ℕ) (h : k < l₁.length) :
    (l₁ ++ l₂).getD k 0 = l₁.getD k 0 := by
  induction l₁ generalizing k with
  | nil => simp at h
  | cons x xs ih =>
      cases k with
      | zero => simp
      | succ k => simpa using ih k (by simpa using h)

lemma getD_append_hi (l₁ l₂ : List ℝ) (k : ℕ) :
    (l₁ ++ l₂).getD (k + l₁.length) 0 = l₂.getD k 0 := by
  induction l₁ generalizing k with
  | nil => simp
  | cons x xs ih =>
      have harith : k + (x :: xs).length = (k + xs.length) + 1 := by
        simp
        omega
      rw [harith, List.cons_append, List.getD_cons_succ, ih]

/-- C9: the generalized Z1 analytical evaluator computes
`num_edges / 2 − Σ_edges sin(2β_u) sin(2β_v) sin(2γ_u) sin(2γ_v) / 2`
(with per-node gammas at positions `0..n-1` and per-node betas at
`n..2n-1`), and its reduced variant on a free gamma vector of length `n`
equals the full formula with every beta fixed at `π/4` (the source prepends
the `π/4` block in the gamma slots, which is equivalent because the
per-edge term is symmetric under exchanging the gamma and beta vectors). -/
theorem C9_general_z1_formula {n : ℕ} (graph : MCGraph n) :
    (∀ angles : List ℝ,
        calc_expectation_general_analytical_z1 angles graph
          = z1SpecFormula (fun u => angles.getD u.val 0)
              (fun u => angles.getD (u.val + n) 0) graph)
    ∧ (∀ angles : List ℝ, angles.length = n →
        calc_expectation_general_analytical_z1_reduced angles graph
          = calc_expectation_general_analytical_z1
              (angles ++ List.replicate n (Real.pi / 4)) graph) := by
  constructor
  · intro angles
    rfl
  · intro angles hlen
    unfold calc_expectation_general_analytical_z1_reduced
      calc_expectation_general_analytical_z1
    congr 1
    congr 1
    apply List.map_congr_left
    intro uv _
    have h1u : (List.replicate n (Real.pi / 4) ++ angles).getD (uv.1.val + n) 0
        = angles.getD uv.1.val 0 := by
      have := getD_append_hi (List.replicate n (Real.pi / 4)) angles uv.1.val
      simpa using this
    have h1v : (List.replicate n (Real.pi / 4) ++ angles).getD (uv.2.val + n) 0
        = angles.getD uv.2.val 0 := by
      have := getD_append_hi (List.replicate n (Real.pi / 4)) angles uv.2.val
      simpa using this
    have h2u : (List.replicate n (Real.pi / 4) ++ angles).getD uv.1.val 0 = Real.pi / 4 := by
      rw [getD_append_lo _ _ _ (by simp only [List.length_replicate]; exact uv.1.isLt),
        getD_replicate_of_lt _ _ _ uv.1.isLt]
    have h2v : (List.replicate n (Real.pi / 4) ++ angles).getD uv.2.val 0 = Real.pi / 4 := by
      rw [getD_append_lo _ _ _ (by simp only [List.length_replicate]; exact uv.2.isLt),
        getD_replicate_of_lt _ _ _ uv.2.isLt]
    have h3u : (angles ++ List.replicate n (Real.pi / 4)).getD uv.1.val 0
        = angles.getD uv.1.val 0 :=
      getD_append_lo _ _ _ (by rw [hlen]; exact uv.1.isLt)
    have h3v : (angles ++ List.replicate n (Real.pi / 4)).getD uv.2.val 0
        = angles.getD uv.2.val 0 :=
      getD_append_lo _ _ _ (by rw [hlen]; exact uv.2.isLt)
    have h4u : (angles ++ List.replicate n (Real.pi / 4)).getD (uv.1.val + n) 0
        = Real.pi / 4 := by
      rw [show uv.1.val + n = uv.1.val + angles.length by rw [hlen], getD_append_hi,
        getD_replicate_of_lt _ _ _ uv.1.isLt]
    have h4v : (angles ++ List.replicate n (Real.pi / 4)).getD (uv.2.val + n) 0
        = Real.pi / 4 := by
      rw [show uv.2.val + n = uv.2.val + angles.length by rw [hlen], getD_append_hi,
        getD_replicate_of_lt _ _ _ uv.2.isLt]
    rw [h1u, h1v, h2u, h2v, h3u, h3v, h4u, h4v]
    ring

/-- Witness for C9: the single-edge graph on two nodes with the free gamma
vector `[1, 2]`. -/
theorem C9_general_z1_formula_witness :
    (([(1 : ℝ), 2]).length = 2) ∧
    calc_expectation_general_analytical_z1_reduced [(1 : ℝ), 2]
        (⟨[((0 : Fin 2), (1 : Fin 2))], [1], []⟩ : MCGraph 2)
      = calc_expectation_general_analytical_z1 ([(1 : ℝ), 2] ++ List.replicate 2 (Real.pi / 4))
        (⟨[((0 : Fin 2), (1 : Fin 2))], [1], []⟩ : MCGraph 2) :=
  ⟨by norm_num,
    (C9_general_z1_formula (⟨[((0 : Fin 2), (1 : Fin 2))], [1], []⟩ : MCGraph 2)).2
      [(1 : ℝ), 2] (by norm_num)⟩

/-! ## The optimization drivers (claims C4, C6, C7, C10)

The random starting points and the local optimizer
(`scipy.optimize.minimize`) are modelled as an oracle: a `RestartResult`
records, for one restart, the drawn starting point `next_angles` and the
`fun` / `x` fields of the scipy result object.  The drivers are then
deterministic functions of the oracle list. -/

/-- One restart's data: the random starting point (`next_angles`) and the
local optimizer's reported minimum value (`result.fun`) and minimizing
point (`result.x`). -/
structure RestartResult where
  start : List ℝ
  resFun : ℝ
  resX : List ℝ

/-- The body of the restart loop of `optimize_qaoa_angles`
(src/optimization.py:187-192): if `-result.fun > objective_best`, record
`objective_best = -result.fun` and `angles_best = result.x`. -/
def srcOptStep (state : ℝ × List ℝ) (r : RestartResult) : ℝ × List ℝ :=
  if -r.resFun > state.1 then (-r.resFun, r.resX) else state

/-- `optimize_qaoa_angles` (src/optimization.py:174): starts from
`objective_best = 0` and `angles_best = np.zeros(evaluator.num_angles)`,
folds the restart loop over all `num_restarts` oracle outcomes (there is no
early stop in this driver), and returns the pair
`(objective_best, angles_best)`. -/
def optimize_qaoa_angles_src (num_angles : ℕ) (restarts : List RestartResult) : ℝ × List ℝ :=
  restarts.foldl srcOptStep (0, List.replicate num_angles 0)

/-- The restart loop of `optimize_qaoa_angles` (qaoa_core.py:255-273),
including the early-stop `break` (lines 256-257: leave the loop as soon as
`objective_max - objective_best < 1e-3`) and the update of lines 271-273,
which records `angles_best = next_angles / np.pi` — the restart's starting
point divided by π, not the optimizer's minimizer. -/
def coreOptLoop (objective_max : ℝ) : List RestartResult → ℝ → List ℝ → ℝ × List ℝ
  | [], objective_best, angles_best => (objective_best, angles_best)
  | r :: rs, objective_best, angles_best =>
      if objective_max - objective_best < 1e-3 then (objective_best, angles_best)
      else if -r.resFun > objective_best then
        coreOptLoop objective_max rs (-r.resFun) (r.start.map (fun t => t / Real.pi))
      else coreOptLoop objective_max rs objective_best angles_best

/-- `optimize_qaoa_angles` (qaoa_core.py:224): first the assert
`not use_analytical or p == 1` (modelled as `Except.error` with the assert's
message), then `objective_max = sum of edge weights`,
`angles_best = np.zeros(num_angles_per_layer * p)`, `objective_best = 0`,
at most `optimization_attempts = 10` restarts through `coreOptLoop`, and
finally `return objective_best` — the best objective only, not the angle
pair. -/
def optimize_qaoa_angles {n : ℕ} (multi_angle use_analytical : Bool) (p : ℕ)
    (graph : MCGraph n) (restarts : List RestartResult) : Except String ℝ :=
  if use_analytical = true ∧ p ≠ 1 then Except.error "Cannot use analytical for p != 1"
  else
    let num_angles_per_layer := if multi_angle then graph.edges.length + n else 2
    let objective_max := graph.weights.sum
    Except.ok (coreOptLoop objective_max (restarts.take 10) 0
      (List.replicate (num_angles_per_layer * p) 0)).1

/-- C7: for every `p ≠ 1`, requesting the analytical evaluator
(`use_analytical = True`) makes `optimize_qaoa_angles` fail with the
assert's error before any restart outcome is consumed — the result is the
error for every oracle list, so no optimization or evaluation can have
run. -/
theorem C7_analytical_rejected_for_p_ne_one {n : ℕ} (multi_angle : Bool) (p : ℕ)
    (hp : p ≠ 1) (graph : MCGraph n) (restarts : List RestartResult) :
    optimize_qaoa_angles multi_angle true p graph restarts
      = Except.error "Cannot use analytical for p != 1" := by
  unfold optimize_qaoa_angles
  rw [if_pos ⟨rfl, hp⟩]

/-- Witness for C7: `p = 2`, the single-edge graph, an arbitrary oracle. -/
theorem C7_analytical_rejected_for_p_ne_one_witness :
    (2 ≠ 1) ∧
    optimize_qaoa_angles true true 2 (⟨[((0 : Fin 2), (1 : Fin 2))], [1], []⟩ : MCGraph 2) []
      = Except.error "Cannot use analytical for p != 1" :=
  ⟨by norm_num,
    C7_analytical_rejected_for_p_ne_one true 2 (by norm_num)
      (⟨[((0 : Fin 2), (1 : Fin 2))], [1], []⟩ : MCGraph 2) []⟩

/-- C6 counterexample: the driver of src/optimization.py has no early stop.
With one angle, sum of edge weights 1 (so the attainable maximum is reached
by the first restart, `-result.fun = 1`), the second restart is still
consumed and even overwrites the result: the driver returns `(2, [6])`,
which it could only do by attempting a restart after the best objective was
already within 1e-3 of the maximum. -/
theorem C6_src_driver_has_no_early_stop :
    optimize_qaoa_angles_src 1 [⟨[0], -1, [5]⟩, ⟨[0], -2, [6]⟩] = (2, [6]) ∧
    ((1 : ℝ) - 1 < 1e-3) := by
  constructor
  · simp only [optimize_qaoa_angles_src, List.foldl_cons, List.foldl_nil, srcOptStep]
    norm_num
  · norm_num

/-- C6 amended: the early stop exists only in the qaoa_core.py driver: its
restart loop, whenever `objective_max - objective_best < 1e-3` holds at the
top of an iteration, returns immediately and attempts none of the remaining
restarts. -/
theorem C6_core_driver_early_stop (objective_max objective_best : ℝ)
    (angles_best : List ℝ) (r : RestartResult) (rs : List RestartResult)
    (h : objective_max - objective_best < 1e-3) :
    coreOptLoop objective_max (r :: rs) objective_best angles_best
      = (objective_best, angles_best) := by
  unfold coreOptLoop
  rw [if_pos h]

/-- Witness for C6 (amended): maximum 1 already attained. -/
theorem C6_core_driver_early_stop_witness :
    ((1 : ℝ) - 1 < 1e-3) ∧
    coreOptLoop 1 [⟨[0], -2, [6]⟩] 1 [0] = (1, [0]) :=
  ⟨by norm_num, C6_core_driver_early_stop 1 1 [0] ⟨[0], -2, [6]⟩ [] (by norm_num)⟩

/-- C4 counterexample: the qaoa_core.py driver does not record the
optimizer's minimizer.  One restart starting at `[π]` with minimizer
`result.x = [5]` and `result.fun = -1` (and `objective_max = 10`, so no
early stop): the loop records `next_angles / π = [1]`, not `[5]`, and the
driver itself returns only the scalar objective. -/
theorem C4_core_driver_records_start_not_minimizer :
    coreOptLoop 10 [⟨[Real.pi], -1, [5]⟩] 0 [0] = (1, [1]) ∧
    ([1] : List ℝ) ≠ [5] := by
  constructor
  · unfold coreOptLoop
    rw [if_neg (by norm_num), if_pos (by norm_num)]
    unfold coreOptLoop
    have : Real.pi / Real.pi = 1 := div_self Real.pi_ne_zero
    simp [this]
  · intro h
    have := List.head_eq_of_cons_eq h
    norm_num at this

/-- C4 amended: the src/optimization.py driver satisfies the claim: it is
the fold of the restart step over the oracle outcomes starting from
`(0, zeros)`; a restart whose negated objective strictly exceeds the best
so far makes the step record exactly `(-result.fun, result.x)` (the
minimizing angles returned by the local optimizer), any other restart
leaves the state unchanged, and the driver returns the resulting
`(best objective, best angles)` pair.  The qaoa_core.py driver instead
records `next_angles / π` and returns only the objective. -/
theorem C4_src_driver_records_minimizer (num_angles : ℕ) (restarts : List RestartResult) :
    optimize_qaoa_angles_src num_angles restarts
        = restarts.foldl srcOptStep (0, List.replicate num_angles 0)
    ∧ (∀ (state : ℝ × List ℝ) (r : RestartResult),
        -r.resFun > state.1 → srcOptStep state r = (-r.resFun, r.resX))
    ∧ (∀ (state : ℝ × List ℝ) (r : RestartResult),
        ¬(-r.resFun > state.1) → srcOptStep state r = state) :=
  ⟨rfl,
    fun state r h => by unfold srcOptStep; rw [if_pos h],
    fun state r h => by unfold srcOptStep; rw [if_neg h]⟩

/-- Witness for C4 (amended): a single improving restart with minimizer
`[3, 4]` is recorded as such. -/
theorem C4_src_driver_records_minimizer_witness :
    (-(⟨[1, 1], -2, [3, 4]⟩ : RestartResult).resFun > ((0 : ℝ), ([0, 0] : List ℝ)).1) ∧
    srcOptStep (0, [0, 0]) ⟨[1, 1], -2, [3, 4]⟩ = (2, [3, 4]) := by
  refine ⟨by norm_num, ?_⟩
  have h := (C4_src_driver_records_minimizer 2 []).2.1 (0, [0, 0])
    ⟨[1, 1], -2, [3, 4]⟩ (by norm_num)
  simpa using h

/-- C10: whenever every restart's sign-flipped objective is non-positive
(`-result.fun ≤ 0` for all oracle outcomes), the src/optimization.py driver
returns objective 0 together with the all-zeros angle vector: the running
best starts at `(0, np.zeros(num_angles))` and is only replaced on a
strictly larger objective, so nothing ever replaces it — the returned
angle vector is the initial zeros, which no restart produced or
evaluated. -/
theorem C10_src_driver_returns_zeros (num_angles : ℕ) (restarts : List RestartResult)
    (h : ∀ r ∈ restarts, -r.resFun ≤ 0) :
    optimize_qaoa_angles_src num_angles restarts = (0, List.replicate num_angles 0) := by
  unfold optimize_qaoa_angles_src
  induction restarts with
  | nil => rfl
  | cons r rs ih =>
      rw [List.foldl_cons]
      have hr : srcOptStep (0, List.replicate num_angles 0) r
          = (0, List.replicate num_angles 0) := by
        unfold srcOptStep
        rw [if_neg (not_lt.mpr (h r (List.mem_cons_self r rs)))]
      rw [hr]
      exact ih (fun r hr => h r (List.mem_cons_of_mem _ hr))

/-- Witness for C10: a single restart with `result.fun = 1`. -/
theorem C10_src_driver_returns_zeros_witness :
    (∀ r ∈ [(⟨[0], 1, [7]⟩ : RestartResult)], -r.resFun ≤ 0) ∧
    optimize_qaoa_angles_src 1 [⟨[0], 1, [7]⟩] = (0, List.replicate 1 0) := by
  have hall : ∀ r ∈ [(⟨[0], 1, [7]⟩ : RestartResult)], -r.resFun ≤ 0 := by
    intro r hr
    simp only [List.mem_singleton] at hr
    subst hr
    norm_num
  exact ⟨hall, C10_src_driver_returns_zeros 1 _ hall⟩

/-! ## Claim C1 machinery: operator algebra for the depth-1 equivalence

`Mop q β` is the closed form of one `apply_unitary_one_qubit` pass with the
canonical tables; `cinner` is the Hermitian inner product on amplitude
vectors; `pmul w` multiplies an amplitude vector pointwise by a real
diagonal observable `w`. -/

/-- Closed form of the one-qubit mixer pass on qubit `q`. -/
def Mop {n : ℕ} (q : Fin n) (β : ℝ) (φ : Basis n → ℂ) : Basis n → ℂ :=
  fun x => (Real.cos β : ℂ) * φ x + -Complex.I * (Real.sin β : ℂ) * φ (flipAt q x)

/-- Hermitian inner product `⟨φ, χ⟩ = Σ_x conj (φ x) * χ x`. -/
def cinner {n : ℕ} (φ χ : Basis n → ℂ) : ℂ :=
  ∑ x : Basis n, (starRingEnd ℂ) (φ x) * χ x

/-- Pointwise multiplication by a real diagonal. -/
def pmul {n : ℕ} (w : Basis n → ℝ) (φ : Basis n → ℂ) : Basis n → ℂ :=
  fun x => (w x : ℂ) * φ x

lemma apply_unitary_exp_x_eq_Mop {n : ℕ} (q : Fin n) (β : ℝ) (φ : Basis n → ℂ) :
    apply_unitary_one_qubit (get_exp_x β) φ (flipAt q) (bitAt q) = Mop q β φ := by
  funext i
  rw [apply_unitary_exp_x_apply β φ (flipAt q) (bitAt q) (flipAt_involutive q) i]
  rfl

lemma Mop_zero {n : ℕ} (q : Fin n) (φ : Basis n → ℂ) : Mop q 0 φ = φ := by
  funext x
  simp [Mop]

lemma Mop_add {n : ℕ} (q : Fin n) (a b : ℝ) (φ : Basis n → ℂ) :
    Mop q a (Mop q b φ) = Mop q (a + b) φ := by
  funext x
  simp only [Mop, flipAt_involutive q x]
  have hc : ((Real.cos (a + b) : ℝ) : ℂ)
      = (Real.cos a : ℂ) * (Real.cos b : ℂ) - (Real.sin a : ℂ) * (Real.sin b : ℂ) := by
    rw [Real.cos_add]
    push_cast
    ring
  have hs : ((Real.sin (a + b) : ℝ) : ℂ)
      = (Real.sin a : ℂ) * (Real.cos b : ℂ) + (Real.cos a : ℂ) * (Real.sin b : ℂ) := by
    rw [Real.sin_add]
    push_cast
    ring
  rw [hc, hs]
  have h2 : Complex.I ^ 2 = -1 := Complex.I_sq
  linear_combination (φ x * (Real.sin a : ℂ) * (Real.sin b : ℂ)) * h2

lemma flipAt_comm {n : ℕ} (q r : Fin n) :
    flipAt q ∘ flipAt r = flipAt r ∘ flipAt q :=
  neighbours_comm_of_consistent flipAt bitAt
    (fun q x => bitAt_flipAt_self q x)
    (fun q r x h => bitAt_flipAt_other q r x h)
    (fun x y h => bitAt_injective x y h) q r

lemma flipAt_comm_apply {n : ℕ} (q r : Fin n) (x : Basis n) :
    flipAt q (flipAt r x) = flipAt r (flipAt q x) := by
  have := congrFun (flipAt_comm q r) x
  simpa using this

lemma Mop_comm {n : ℕ} (q r : Fin n) (a b : ℝ) (φ : Basis n → ℂ) :
    Mop q a (Mop r b φ) = Mop r b (Mop q a φ) := by
  funext x
  simp only [Mop, flipAt_comm_apply q r x]
  ring

lemma cinner_Mop_left {n : ℕ} (q : Fin n) (β : ℝ) (φ χ : Basis n → ℂ) :
    cinner (Mop q β φ) χ = cinner φ (Mop q (-β) χ) := by
  unfold cinner Mop
  have hperm : ∀ f : Basis n → ℂ,
      ∑ x : Basis n, f (flipAt q x) = ∑ x : Basis n, f x := by
    intro f
    exact Equiv.sum_comp (Function.Involutive.toPerm (flipAt q) (flipAt_involutive q)) f
  have hre : ∑ x : Basis n, (starRingEnd ℂ) (φ (flipAt q x)) * χ x
      = ∑ x : Basis n, (starRingEnd ℂ) (φ x) * χ (flipAt q x) := by
    calc ∑ x : Basis n, (starRingEnd ℂ) (φ (flipAt q x)) * χ x
        = ∑ x : Basis n, (starRingEnd ℂ) (φ (flipAt q (flipAt q x))) * χ (flipAt q x) :=
          (hperm (fun x => (starRingEnd ℂ) (φ (flipAt q x)) * χ x)).symm
      _ = ∑ x : Basis n, (starRingEnd ℂ) (φ x) * χ (flipAt q x) := by
          refine Finset.sum_congr rfl (fun x _ => ?_)
          rw [flipAt_involutive q x]
  have eL : ∑ x : Basis n, (starRingEnd ℂ)
        ((Real.cos β : ℂ) * φ x + -Complex.I * (Real.sin β : ℂ) * φ (flipAt q x)) * χ x
      = ∑ x : Basis n, ((Real.cos β : ℂ) * ((starRingEnd ℂ) (φ x) * χ x)
          + Complex.I * (Real.sin β : ℂ) * ((starRingEnd ℂ) (φ (flipAt q x)) * χ x)) :=
    Finset.sum_congr rfl (fun x _ => by
      simp only [map_add, map_mul, Complex.conj_ofReal, map_neg, Complex.conj_I]
      ring)
  have eR : ∑ x : Basis n, (starRingEnd ℂ) (φ x) *
        ((Real.cos (-β) : ℂ) * χ x + -Complex.I * (Real.sin (-β) : ℂ) * χ (flipAt q x))
      = ∑ x : Basis n, ((Real.cos β : ℂ) * ((starRingEnd ℂ) (φ x) * χ x)
          + Complex.I * (Real.sin β : ℂ) * ((starRingEnd ℂ) (φ x) * χ (flipAt q x))) :=
    Finset.sum_congr rfl (fun x _ => by
      simp only [Real.cos_neg, Real.sin_neg, Complex.ofReal_neg]
      ring)
  rw [eL, eR, Finset.sum_add_distrib, Finset.sum_add_distrib]
  simp only [← Finset.mul_sum]
  rw [hre]

lemma cinner_Mop_cancel {n : ℕ} (q : Fin n) (β : ℝ) (φ χ : Basis n → ℂ) :
    cinner (Mop q β φ) (Mop q β χ) = cinner φ χ := by
  rw [cinner_Mop_left, Mop_add]
  simp [Mop_zero]

/-- The `±1` sign of one bit (`+1` for `0`, `-1` for `1`). -/
def pmSign (b : Bool) : ℝ := if b then -1 else 1

/-- The diagonal of `Z_u Z_v`: the edge-cut observable satisfies
`cut_uv(x) = (1 - pmD u v x) / 2`. -/
def pmD {n : ℕ} (u v : Fin n) (x : Basis n) : ℝ := pmSign (x u) * pmSign (x v)

lemma flipAt_apply_self {n : ℕ} (q : Fin n) (x : Basis n) : flipAt q x q = !x q := by
  simp [flipAt_apply]

lemma flipAt_apply_other {n : ℕ} (q j : Fin n) (x : Basis n) (h : j ≠ q) :
    flipAt q x j = x j := by
  simp [flipAt_apply, h]

lemma pmSign_not (b : Bool) : pmSign (!b) = -pmSign b := by
  cases b <;> simp [pmSign]

lemma pmD_flip_other {n : ℕ} (u v q : Fin n) (x : Basis n) (hqu : q ≠ u) (hqv : q ≠ v) :
    pmD u v (flipAt q x) = pmD u v x := by
  unfold pmD
  rw [flipAt_apply_other q u x (Ne.symm hqu), flipAt_apply_other q v x (Ne.symm hqv)]

lemma pmD_flip_left {n : ℕ} (u v : Fin n) (x : Basis n) (huv : u ≠ v) :
    pmD u v (flipAt u x) = -pmD u v x := by
  unfold pmD
  rw [flipAt_apply_self, flipAt_apply_other u v x (Ne.symm huv), pmSign_not]
  ring

lemma pmD_flip_right {n : ℕ} (u v : Fin n) (x : Basis n) (huv : u ≠ v) :
    pmD u v (flipAt v x) = -pmD u v x := by
  unfold pmD
  rw [flipAt_apply_self, flipAt_apply_other v u x huv, pmSign_not]
  ring

lemma pmul_Mop_comm {n : ℕ} (w : Basis n → ℝ) (q : Fin n) (β : ℝ) (φ : Basis n → ℂ)
    (hw : ∀ x, w (flipAt q x) = w x) :
    pmul w (Mop q β φ) = Mop q β (pmul w φ) := by
  funext x
  simp only [pmul, Mop, hw x]
  ring

lemma pmul_Mop_anticomm {n : ℕ} (w : Basis n → ℝ) (q : Fin n) (β : ℝ) (φ : Basis n → ℂ)
    (hw : ∀ x, w (flipAt q x) = -w x) :
    pmul w (Mop q β φ) = Mop q (-β) (pmul w φ) := by
  funext x
  simp only [pmul, Mop, hw x, Real.cos_neg, Real.sin_neg, Complex.ofReal_neg]
  ring

/-- The mixer layer as a fold of the closed-form one-qubit operators. -/
def MopFold {n : ℕ} (L : List (Fin n)) (a : Fin n → ℝ) (φ : Basis n → ℂ) : Basis n → ℂ :=
  L.foldl (fun acc q => Mop q (a q) acc) φ

lemma apply_ub_eq_MopFold {n : ℕ} (betas : List ℝ) (φ : Basis n → ℂ) :
    apply_ub_individual betas φ flipAt bitAt
      = MopFold (List.finRange n) (fun q => betas.getD q.val 0) φ := by
  unfold apply_ub_individual MopFold
  apply List.foldl_ext
  intro acc q _
  exact apply_unitary_exp_x_eq_Mop q (betas.getD q.val 0) acc

lemma MopFold_perm {n : ℕ} {l₁ l₂ : List (Fin n)} (p : l₁.Perm l₂) (a : Fin n → ℝ)
    (φ : Basis n → ℂ) : MopFold l₁ a φ = MopFold l₂ a φ :=
  List.Perm.foldl_eq' p (fun x _ y _ z => Mop_comm y x (a y) (a x) z) φ

lemma finRange_perm_filter_pair {n : ℕ} (u v : Fin n) (huv : u ≠ v) :
    (List.finRange n).Perm
      (((List.finRange n).filter (fun q => !(q == u || q == v))) ++ [u, v]) := by
  have h1 := List.filter_append_perm (fun q => !(q == u || q == v)) (List.finRange n)
  have h2 : (List.finRange n).filter (fun q => !(!(q == u || q == v)))
      = (List.finRange n).filter (fun q => q == u || q == v) := by
    apply List.filter_congr
    intro q _
    rw [Bool.not_not]
  have h3 : ((List.finRange n).filter (fun q => q == u || q == v)).Perm [u, v] := by
    rw [List.perm_ext_iff_of_nodup ((List.nodup_finRange n).filter _)
      (by simp [List.nodup_cons, huv])]
    intro q
    simp only [List.mem_filter, List.mem_finRange, true_and, Bool.or_eq_true, beq_iff_eq]
    constructor
    · rintro (rfl | rfl) <;> simp
    · intro hq
      rcases List.mem_cons.mp hq with rfl | hq
      · left
        rfl
      · rcases List.mem_cons.mp hq with rfl | hq
        · right
          rfl
        · simp at hq
  have hB : ((List.finRange n).filter (fun q => !(q == u || q == v)) ++
        (List.finRange n).filter (fun q => !(!(q == u || q == v)))).Perm
      ((List.finRange n).filter (fun q => !(q == u || q == v)) ++ [u, v]) := by
    rw [h2]
    exact List.Perm.append_left _ h3
  exact h1.symm.trans hB

lemma mem_filter_pair_ne {n : ℕ} (u v q : Fin n)
    (hq : q ∈ (List.finRange n).filter (fun q => !(q == u || q == v))) :
    q ≠ u ∧ q ≠ v := by
  have h := (List.mem_filter.mp hq).2
  constructor <;> intro he <;> subst he <;> simp at h

lemma cinner_pmul_MopFold_peel {n : ℕ} (u v : Fin n) (L : List (Fin n)) (a : Fin n → ℝ)
    (c₁ c₂ : ℝ) (hL : ∀ q ∈ L, q ≠ u ∧ q ≠ v) (φ : Basis n → ℂ) :
    cinner (MopFold L a φ) (Mop u c₁ (Mop v c₂ (pmul (pmD u v) (MopFold L a φ))))
      = cinner φ (Mop u c₁ (Mop v c₂ (pmul (pmD u v) φ))) := by
  induction L generalizing φ with
  | nil => rfl
  | cons q L ih =>
      have hq := hL q (List.mem_cons_self q L)
      have hLtail : ∀ r ∈ L, r ≠ u ∧ r ≠ v := fun r hr => hL r (List.mem_cons_of_mem q hr)
      have hfold : MopFold (q :: L) a φ = MopFold L a (Mop q (a q) φ) := rfl
      rw [hfold, ih hLtail (Mop q (a q) φ)]
      rw [pmul_Mop_comm (pmD u v) q (a q) φ
        (fun x => pmD_flip_other u v q x hq.1 hq.2)]
      rw [Mop_comm v q c₂ (a q), Mop_comm u q c₁ (a q)]
      exact cinner_Mop_cancel q (a q) φ (Mop u c₁ (Mop v c₂ (pmul (pmD u v) φ)))

/-- Conjugating the `Z_u Z_v` diagonal through the whole mixer layer leaves
`Mop u (-2 a u) ∘ Mop v (-2 a v)` applied to the diagonal-multiplied state. -/
lemma cinner_pmD_MopFold_reduction {n : ℕ} (u v : Fin n) (huv : u ≠ v) (a : Fin n → ℝ)
    (φ : Basis n → ℂ) :
    cinner (MopFold (List.finRange n) a φ) (pmul (pmD u v) (MopFold (List.finRange n) a φ))
      = cinner φ (Mop u (-(2 * a u)) (Mop v (-(2 * a v)) (pmul (pmD u v) φ))) := by
  have hdecomp : MopFold (List.finRange n) a φ
      = Mop v (a v) (Mop u (a u)
          (MopFold ((List.finRange n).filter (fun q => !(q == u || q == v))) a φ)) := by
    rw [MopFold_perm (finRange_perm_filter_pair u v huv) a φ]
    unfold MopFold
    rw [List.foldl_append]
    rfl
  rw [hdecomp]
  rw [pmul_Mop_anticomm (pmD u v) v (a v) _ (fun x => pmD_flip_right u v x huv)]
  rw [cinner_Mop_left v (a v)]
  rw [Mop_add v (-(a v)) (-(a v))]
  rw [show (-(a v) + -(a v)) = -(2 * a v) by ring]
  rw [pmul_Mop_anticomm (pmD u v) u (a u) _ (fun x => pmD_flip_left u v x huv)]
  rw [Mop_comm v u (-(2 * a v)) (-(a u))]
  rw [cinner_Mop_left u (a u)]
  rw [Mop_add u (-(a u)) (-(a u))]
  rw [show (-(a u) + -(a u)) = -(2 * a u) by ring]
  exact cinner_pmul_MopFold_peel u v _ a _ _
    (fun q hq => mem_filter_pair_ne u v q hq) φ

/-- Real form of the diagonal expectation against a weight `w`. -/
lemma cinner_pmul_self {n : ℕ} (w : Basis n → ℝ) (ψ : Basis n → ℂ) :
    cinner ψ (pmul w ψ) = ((∑ x : Basis n, w x * Complex.normSq (ψ x) : ℝ) : ℂ) := by
  unfold cinner pmul
  have e1 : ∀ x : Basis n, (starRingEnd ℂ) (ψ x) * ((w x : ℂ) * ψ x)
      = (w x : ℂ) * ((Complex.normSq (ψ x) : ℝ) : ℂ) := by
    intro x
    rw [show (starRingEnd ℂ) (ψ x) * ((w x : ℂ) * ψ x)
        = (w x : ℂ) * ((starRingEnd ℂ) (ψ x) * ψ x) by ring]
    congr 1
    rw [← Complex.normSq_eq_conj_mul_self]
  rw [Finset.sum_congr rfl (fun x _ => e1 x)]
  push_cast
  rfl

/-- Expansion of the doubly-conjugated diagonal against the four flip
translates. -/
lemma Mop_Mop_pmul_expand {n : ℕ} (u v : Fin n) (huv : u ≠ v) (c₁ c₂ : ℝ)
    (φ : Basis n → ℂ) (x : Basis n) :
    Mop u c₁ (Mop v c₂ (pmul (pmD u v) φ)) x
      = (pmD u v x : ℝ) *
        ((Real.cos c₁ : ℂ) * (Real.cos c₂ : ℂ) * φ x
          + Complex.I * (Real.cos c₁ : ℂ) * (Real.sin c₂ : ℂ) * φ (flipAt v x)
          + Complex.I * (Real.sin c₁ : ℂ) * (Real.cos c₂ : ℂ) * φ (flipAt u x)
          - (Real.sin c₁ : ℂ) * (Real.sin c₂ : ℂ) * φ (flipAt v (flipAt u x))) := by
  simp only [Mop, pmul]
  rw [pmD_flip_right u v x huv, pmD_flip_left u v x huv,
    show pmD u v (flipAt v (flipAt u x)) = pmD u v x from by
      rw [pmD_flip_right u v (flipAt u x) huv, pmD_flip_left u v x huv]
      ring]
  simp only [Complex.ofReal_neg]
  have h2 : Complex.I ^ 2 = -1 := Complex.I_sq
  linear_combination ((pmD u v x : ℝ) : ℂ) * (Real.sin c₁ : ℂ) * (Real.sin c₂ : ℂ)
    * φ (flipAt v (flipAt u x)) * h2

/-- Change of one edge-cut value under flipping one of its endpoints:
`cut(x) - cut(flip x)` is `+1` when the edge was cut and `-1` otherwise. -/
def etaSgn (a t : Bool) : ℝ := if a = t then -1 else 1

lemma sum_pmD_eq_zero {n : ℕ} (u v : Fin n) (huv : u ≠ v) :
    ∑ x : Basis n, pmD u v x = 0 := by
  have hperm : ∑ x : Basis n, pmD u v (flipAt u x) = ∑ x : Basis n, pmD u v x :=
    Equiv.sum_comp (Function.Involutive.toPerm (flipAt u) (flipAt_involutive u)) _
  have hneg : ∑ x : Basis n, pmD u v (flipAt u x) = -∑ x : Basis n, pmD u v x := by
    rw [Finset.sum_congr rfl (fun x _ => pmD_flip_left u v x huv), Finset.sum_neg_distrib]
  linarith [hperm, hneg]

/-- Sums over the Boolean hypercube of coordinate-wise products factorize. -/
lemma sum_prod_bool {ι : Type*} [Fintype ι] [DecidableEq ι] (g : ι → Bool → ℂ) :
    ∑ x : ι → Bool, ∏ j : ι, g j (x j) = ∏ j : ι, (g j false + g j true) := by
  have h := Finset.prod_univ_sum (fun _ : ι => (Finset.univ : Finset Bool)) (fun j b => g j b)
  rw [Fintype.piFinset_univ] at h
  rw [← h]
  apply Finset.prod_congr rfl
  intro j _
  rw [Fintype.sum_bool]
  ring

lemma cexp_add_cexp_neg (r : ℝ) :
    Complex.exp ((r : ℂ) * Complex.I) + Complex.exp (-(r : ℂ) * Complex.I)
      = 2 * (Real.cos r : ℂ) := by
  rw [Complex.exp_mul_I, Complex.exp_mul_I]
  rw [Complex.cos_neg, Complex.sin_neg, ← Complex.ofReal_cos, ← Complex.ofReal_sin]
  ring

lemma cexp_sub_cexp_neg (r : ℝ) :
    Complex.exp ((r : ℂ) * Complex.I) - Complex.exp (-(r : ℂ) * Complex.I)
      = 2 * Complex.I * (Real.sin r : ℂ) := by
  rw [Complex.exp_mul_I, Complex.exp_mul_I]
  rw [Complex.cos_neg, Complex.sin_neg, ← Complex.ofReal_cos, ← Complex.ofReal_sin]
  ring

/-- Splitting a product over all qubits at the two pinned coordinates, a
neighbourhood, and the untouched rest. -/
lemma prod_split_uv_rest {n : ℕ} (u v : Fin n) (huv : u ≠ v) (s : Finset (Fin n))
    (hvs : v ∉ s) (h : Fin n → ℂ) :
    ∏ j : Fin n, h j
      = h v * (h u * ((∏ j ∈ s.erase u, h j)
          * ∏ j ∈ ((Finset.univ.erase v).erase u) \ s.erase u, h j)) := by
  rw [← Finset.mul_prod_erase Finset.univ h (Finset.mem_univ v)]
  rw [← Finset.mul_prod_erase (Finset.univ.erase v) h
    (Finset.mem_erase.mpr ⟨huv, Finset.mem_univ u⟩)]
  have hsub : s.erase u ⊆ (Finset.univ.erase v).erase u := by
    intro j hj
    rcases Finset.mem_erase.mp hj with ⟨hju, hjs⟩
    exact Finset.mem_erase.mpr ⟨hju, Finset.mem_erase.mpr
      ⟨fun hjv => hvs (hjv ▸ hjs), Finset.mem_univ j⟩⟩
  rw [← Finset.prod_sdiff hsub]
  ring

/-- Per-coordinate factor for the single-flip phase sum, with the value of
the flipped coordinate pinned to `b` (the pin indicator and the `Z_v` sign
are folded into coordinate `v`, the `Z_u` sign into coordinate `u`). -/
def pinFactor {n : ℕ} (u v : Fin n) (s : Finset (Fin n)) (c : Fin n → ℝ) (b : Bool)
    (j : Fin n) (t : Bool) : ℂ :=
  if j = v then (if t = b then (pmSign b : ℂ) else 0)
  else if j = u then
    (pmSign t : ℂ) * Complex.exp (((c j * etaSgn b t : ℝ) : ℂ) * Complex.I)
  else if j ∈ s then Complex.exp (((c j * etaSgn b t : ℝ) : ℂ) * Complex.I)
  else 1

lemma pin_single_pointwise {n : ℕ} (u v : Fin n) (huv : u ≠ v)
    (s : Finset (Fin n)) (hus : u ∈ s) (hvs : v ∉ s) (c : Fin n → ℝ) (x : Basis n) :
    ((pmD u v x : ℝ) : ℂ)
        * Complex.exp (((∑ m ∈ s, c m * etaSgn (x v) (x m) : ℝ) : ℂ) * Complex.I)
      = ∑ b : Bool, ∏ j : Fin n, pinFactor u v s c b j (x j) := by
  have hzero : ∀ b : Bool, b ≠ x v → ∏ j : Fin n, pinFactor u v s c b j (x j) = 0 := by
    intro b hb
    apply Finset.prod_eq_zero (Finset.mem_univ v)
    unfold pinFactor
    rw [if_pos rfl, if_neg (fun h : x v = b => hb h.symm)]
  have hmain : ∏ j : Fin n, pinFactor u v s c (x v) j (x j)
      = ((pmD u v x : ℝ) : ℂ)
        * Complex.exp (((∑ m ∈ s, c m * etaSgn (x v) (x m) : ℝ) : ℂ) * Complex.I) := by
    rw [prod_split_uv_rest u v huv s hvs]
    have hv : pinFactor u v s c (x v) v (x v) = (pmSign (x v) : ℂ) := by
      unfold pinFactor
      rw [if_pos rfl, if_pos rfl]
    have hu : pinFactor u v s c (x v) u (x u)
        = (pmSign (x u) : ℂ)
          * Complex.exp (((c u * etaSgn (x v) (x u) : ℝ) : ℂ) * Complex.I) := by
      unfold pinFactor
      rw [if_neg huv, if_pos rfl]
    have hindiff : ∀ j ∈ s.erase u, pinFactor u v s c (x v) j (x j)
        = Complex.exp (((c j * etaSgn (x v) (x j) : ℝ) : ℂ) * Complex.I) := by
      intro j hj
      rcases Finset.mem_erase.mp hj with ⟨hju, hjs⟩
      have hjv : j ≠ v := fun h => hvs (h ▸ hjs)
      unfold pinFactor
      rw [if_neg hjv, if_neg hju, if_pos hjs]
    have hrest : ∀ j ∈ ((Finset.univ.erase v).erase u) \ s.erase u,
        pinFactor u v s c (x v) j (x j) = 1 := by
      intro j hj
      rcases Finset.mem_sdiff.mp hj with ⟨hj1, hj2⟩
      rcases Finset.mem_erase.mp hj1 with ⟨hju, hj1a⟩
      rcases Finset.mem_erase.mp hj1a with ⟨hjv, _⟩
      have hjs : j ∉ s := fun hjmem => hj2 (Finset.mem_erase.mpr ⟨hju, hjmem⟩)
      unfold pinFactor
      rw [if_neg hjv, if_neg hju, if_neg hjs]
    rw [hv, hu, Finset.prod_congr rfl hindiff, Finset.prod_eq_one hrest, mul_one]
    have hexp : Complex.exp (((∑ m ∈ s, c m * etaSgn (x v) (x m) : ℝ) : ℂ) * Complex.I)
        = ∏ m ∈ s, Complex.exp (((c m * etaSgn (x v) (x m) : ℝ) : ℂ) * Complex.I) := by
      rw [← Complex.exp_sum]
      congr 1
      rw [← Finset.sum_mul]
      congr 1
      push_cast
      rfl
    rw [hexp, ← Finset.mul_prod_erase s _ hus]
    unfold pmD
    push_cast
    ring
  rw [Fintype.sum_bool]
  cases hxv : x v with
  | false =>
      rw [hzero true (by rw [hxv]; exact fun h => Bool.noConfusion h), zero_add]
      rw [← hxv] at *
      exact hmain.symm
  | true =>
      rw [hzero false (by rw [hxv]; exact fun h => Bool.noConfusion h), add_zero]
      rw [← hxv] at *
      exact hmain.symm

lemma two_le_of_ne {n : ℕ} (u v : Fin n) (huv : u ≠ v) : 2 ≤ n := by
  have h1 := u.isLt
  have h2 := v.isLt
  have h3 : u.val ≠ v.val := fun h => huv (Fin.val_injective h)
  omega

lemma erase_subset_erase_erase {n : ℕ} (u v : Fin n) (s : Finset (Fin n)) (hvs : v ∉ s) :
    s.erase u ⊆ (Finset.univ.erase v).erase u := by
  intro j hj
  rcases Finset.mem_erase.mp hj with ⟨hju, hjs⟩
  exact Finset.mem_erase.mpr ⟨hju, Finset.mem_erase.mpr
    ⟨fun hjv => hvs (hjv ▸ hjs), Finset.mem_univ j⟩⟩

lemma card_split_uv {n : ℕ} (u v : Fin n) (huv : u ≠ v) (s : Finset (Fin n)) (hvs : v ∉ s) :
    (s.erase u).card + (((Finset.univ.erase v).erase u) \ s.erase u).card + 2 = n := by
  have hsub := erase_subset_erase_erase u v s hvs
  have hcerase : ((Finset.univ.erase v).erase u).card = n - 2 := by
    rw [Finset.card_erase_of_mem (Finset.mem_erase.mpr ⟨huv, Finset.mem_univ u⟩),
      Finset.card_erase_of_mem (Finset.mem_univ v), Finset.card_univ, Fintype.card_fin]
    omega
  have hr := Finset.card_sdiff hsub
  have hk := Finset.card_le_card hsub
  have hn2 := two_le_of_ne u v huv
  omega

/-- Evaluation of the product of pinned factor sums for the single-flip
phase. -/
lemma pin_single_factor_prod {n : ℕ} (u v : Fin n) (huv : u ≠ v)
    (s : Finset (Fin n)) (hus : u ∈ s) (hvs : v ∉ s) (c : Fin n → ℝ) (b : Bool) :
    ∏ j : Fin n, (pinFactor u v s c b j false + pinFactor u v s c b j true)
      = (pmSign b : ℂ) * ((-(pmSign b : ℂ) * (2 * Complex.I * (Real.sin (c u) : ℂ)))
          * ((∏ m ∈ s.erase u, (2 * (Real.cos (c m) : ℂ)))
            * (2 : ℂ) ^ ((((Finset.univ.erase v).erase u) \ s.erase u).card))) := by
  have hv : pinFactor u v s c b v false + pinFactor u v s c b v true = (pmSign b : ℂ) := by
    unfold pinFactor
    rw [if_pos rfl, if_pos rfl]
    cases b <;> simp
  have hu : pinFactor u v s c b u false + pinFactor u v s c b u true
      = -(pmSign b : ℂ) * (2 * Complex.I * (Real.sin (c u) : ℂ)) := by
    unfold pinFactor
    rw [if_neg huv, if_neg huv, if_pos rfl, if_pos rfl]
    cases b
    · have h1 : (c u * etaSgn false false : ℝ) = -(c u) := by simp [etaSgn]
      have h2 : (c u * etaSgn false true : ℝ) = c u := by simp [etaSgn]
      rw [h1, h2]
      simp only [pmSign, Bool.false_eq_true, if_false, if_true, Complex.ofReal_neg,
        Complex.ofReal_one]
      linear_combination -(cexp_sub_cexp_neg (c u))
    · have h1 : (c u * etaSgn true false : ℝ) = c u := by simp [etaSgn]
      have h2 : (c u * etaSgn true true : ℝ) = -(c u) := by simp [etaSgn]
      rw [h1, h2]
      simp only [pmSign, if_true, Bool.false_eq_true, if_false, Complex.ofReal_neg,
        Complex.ofReal_one]
      linear_combination cexp_sub_cexp_neg (c u)
  have hmid : ∀ j ∈ s.erase u,
      pinFactor u v s c b j false + pinFactor u v s c b j true
        = 2 * (Real.cos (c j) : ℂ) := by
    intro j hj
    rcases Finset.mem_erase.mp hj with ⟨hju, hjs⟩
    have hjv : j ≠ v := fun h => hvs (h ▸ hjs)
    unfold pinFactor
    rw [if_neg hjv, if_neg hjv, if_neg hju, if_neg hju, if_pos hjs, if_pos hjs]
    cases b
    · have h1 : (c j * etaSgn false false : ℝ) = -(c j) := by simp [etaSgn]
      have h2 : (c j * etaSgn false true : ℝ) = c j := by simp [etaSgn]
      rw [h1, h2]
      simp only [Complex.ofReal_neg]
      linear_combination cexp_add_cexp_neg (c j)
    · have h1 : (c j * etaSgn true false : ℝ) = c j := by simp [etaSgn]
      have h2 : (c j * etaSgn true true : ℝ) = -(c j) := by simp [etaSgn]
      rw [h1, h2]
      simp only [Complex.ofReal_neg]
      linear_combination cexp_add_cexp_neg (c j)
  have hrest : ∀ j ∈ (((Finset.univ.erase v).erase u) \ s.erase u),
      pinFactor u v s c b j false + pinFactor u v s c b j true = 2 := by
    intro j hj
    rcases Finset.mem_sdiff.mp hj with ⟨hj1, hj2⟩
    rcases Finset.mem_erase.mp hj1 with ⟨hju, hj1a⟩
    rcases Finset.mem_erase.mp hj1a with ⟨hjv, _⟩
    have hjs : j ∉ s := fun hjmem => hj2 (Finset.mem_erase.mpr ⟨hju, hjmem⟩)
    unfold pinFactor
    rw [if_neg hjv, if_neg hjv, if_neg hju, if_neg hju, if_neg hjs, if_neg hjs]
    norm_num
  rw [prod_split_uv_rest u v huv s hvs
    (fun j => pinFactor u v s c b j false + pinFactor u v s c b j true)]
  rw [hv, hu, Finset.prod_congr rfl hmid, Finset.prod_congr rfl hrest, Finset.prod_const]

/-- The single-flip phase sum: `Σ_x (Z_u Z_v)(x) · exp(i Σ_{m ∈ s} c_m η(x_v, x_m))
= 2^n · (-i) · sin(c_u) · Π_{m ∈ s \ u} cos(c_m)`. -/
lemma sum_pmD_single_flip_phase {n : ℕ} (u v : Fin n) (huv : u ≠ v)
    (s : Finset (Fin n)) (hus : u ∈ s) (hvs : v ∉ s) (c : Fin n → ℝ) :
    ∑ x : Basis n, ((pmD u v x : ℝ) : ℂ)
        * Complex.exp (((∑ m ∈ s, c m * etaSgn (x v) (x m) : ℝ) : ℂ) * Complex.I)
      = (((2 : ℝ) ^ n : ℝ) : ℂ) * (-Complex.I) * (Real.sin (c u) : ℂ)
        * ∏ m ∈ s.erase u, (Real.cos (c m) : ℂ) := by
  rw [Finset.sum_congr rfl (fun x _ => pin_single_pointwise u v huv s hus hvs c x)]
  rw [Finset.sum_comm]
  rw [Finset.sum_congr rfl (fun b _ => sum_prod_bool (pinFactor u v s c b))]
  rw [Fintype.sum_bool, pin_single_factor_prod u v huv s hus hvs c true,
    pin_single_factor_prod u v huv s hus hvs c false]
  rw [Finset.prod_mul_distrib, Finset.prod_const]
  have hpow : (2 : ℂ) ^ (s.erase u).card
        * (2 : ℂ) ^ ((((Finset.univ.erase v).erase u) \ s.erase u).card) * 4
      = (2 : ℂ) ^ n := by
    rw [show (4 : ℂ) = 2 ^ 2 by norm_num, ← pow_add, ← pow_add,
      card_split_uv u v huv s hvs]
  rw [show (((2 : ℝ) ^ n : ℝ) : ℂ) = (2 : ℂ) ^ n from by push_cast; rfl]
  simp only [pmSign, if_true, Bool.false_eq_true, if_false, Complex.ofReal_one,
    Complex.ofReal_neg]
  linear_combination (-Complex.I * (Real.sin (c u) : ℂ)
    * (∏ m ∈ s.erase u, (Real.cos (c m) : ℂ))) * hpow

lemma prod_split_two_sets {n : ℕ} (u v : Fin n) (huv : u ≠ v) (sU sV : Finset (Fin n))
    (huU : u ∉ sU) (hvU : v ∉ sU) (huV : u ∉ sV) (hvV : v ∉ sV) (h : Fin n → ℂ) :
    ∏ j : Fin n, h j
      = h u * (h v * (((∏ j ∈ sU ∩ sV, h j)
            * ((∏ j ∈ sU \ sV, h j) * (∏ j ∈ sV \ sU, h j)))
          * ∏ j ∈ (((Finset.univ.erase u).erase v) \ (sU ∪ sV)), h j)) := by
  rw [← Finset.mul_prod_erase Finset.univ h (Finset.mem_univ u)]
  rw [← Finset.mul_prod_erase (Finset.univ.erase u) h
    (Finset.mem_erase.mpr ⟨Ne.symm huv, Finset.mem_univ v⟩)]
  have hsub : sU ∪ sV ⊆ (Finset.univ.erase u).erase v := by
    intro j hj
    have hju : j ≠ u := by
      rcases Finset.mem_union.mp hj with hj' | hj'
      · exact fun he => huU (he ▸ hj')
      · exact fun he => huV (he ▸ hj')
    have hjv : j ≠ v := by
      rcases Finset.mem_union.mp hj with hj' | hj'
      · exact fun he => hvU (he ▸ hj')
      · exact fun he => hvV (he ▸ hj')
    exact Finset.mem_erase.mpr ⟨hjv, Finset.mem_erase.mpr ⟨hju, Finset.mem_univ j⟩⟩
  rw [← Finset.prod_sdiff hsub]
  have hunion : ∏ j ∈ sU ∪ sV, h j
      = (∏ j ∈ sU ∩ sV, h j) * ((∏ j ∈ sU \ sV, h j) * (∏ j ∈ sV \ sU, h j)) := by
    have e1 : (∏ j ∈ sU \ sV, h j) * (∏ j ∈ sU ∩ sV, h j) = ∏ j ∈ sU, h j := by
      rw [← Finset.prod_union (Finset.disjoint_sdiff_inter sU sV), Finset.sdiff_union_inter]
    have e2 : (∏ j ∈ sU, h j) * (∏ j ∈ sV \ sU, h j) = ∏ j ∈ sU ∪ sV, h j := by
      rw [← Finset.prod_union Finset.disjoint_sdiff, Finset.union_sdiff_self_eq_union]
    rw [← e2, ← e1]
    ring
  rw [hunion]
  ring

/-- Per-coordinate factor for the double-flip phase sum, with both pinned
coordinates `u` (pinned to `a`) and `v` (pinned to `b`). -/
def pinFactor2 {n : ℕ} (u v : Fin n) (sU sV : Finset (Fin n)) (cU cV : Fin n → ℝ)
    (a b : Bool) (j : Fin n) (t : Bool) : ℂ :=
  if j = u then (if t = a then (pmSign a : ℂ) else 0)
  else if j = v then (if t = b then (pmSign b : ℂ) else 0)
  else if j ∈ sU ∩ sV then
    Complex.exp (((cU j * etaSgn a t + cV j * etaSgn b t : ℝ) : ℂ) * Complex.I)
  else if j ∈ sU then Complex.exp (((cU j * etaSgn a t : ℝ) : ℂ) * Complex.I)
  else if j ∈ sV then Complex.exp (((cV j * etaSgn b t : ℝ) : ℂ) * Complex.I)
  else 1

lemma pin_double_pointwise {n : ℕ} (u v : Fin n) (huv : u ≠ v)
    (sU sV : Finset (Fin n)) (huU : u ∉ sU) (hvU : v ∉ sU) (huV : u ∉ sV) (hvV : v ∉ sV)
    (cU cV : Fin n → ℝ) (x : Basis n) :
    ((pmD u v x : ℝ) : ℂ)
        * Complex.exp ((((∑ m ∈ sU, cU m * etaSgn (x u) (x m))
            + ∑ m ∈ sV, cV m * etaSgn (x v) (x m) : ℝ) : ℂ) * Complex.I)
      = ∑ a : Bool, ∑ b : Bool, ∏ j : Fin n, pinFactor2 u v sU sV cU cV a b j (x j) := by
  have hzeroU : ∀ a b : Bool, a ≠ x u →
      ∏ j : Fin n, pinFactor2 u v sU sV cU cV a b j (x j) = 0 := by
    intro a b ha
    apply Finset.prod_eq_zero (Finset.mem_univ u)
    unfold pinFactor2
    rw [if_pos rfl, if_neg (fun h : x u = a => ha h.symm)]
  have hzeroV : ∀ a b : Bool, b ≠ x v →
      ∏ j : Fin n, pinFactor2 u v sU sV cU cV a b j (x j) = 0 := by
    intro a b hb
    apply Finset.prod_eq_zero (Finset.mem_univ v)
    unfold pinFactor2
    rw [if_neg (Ne.symm huv), if_pos rfl, if_neg (fun h : x v = b => hb h.symm)]
  have hmain : ∏ j : Fin n, pinFactor2 u v sU sV cU cV (x u) (x v) j (x j)
      = ((pmD u v x : ℝ) : ℂ)
        * Complex.exp ((((∑ m ∈ sU, cU m * etaSgn (x u) (x m))
            + ∑ m ∈ sV, cV m * etaSgn (x v) (x m) : ℝ) : ℂ) * Complex.I) := by
    rw [prod_split_two_sets u v huv sU sV huU hvU huV hvV]
    have hfu : pinFactor2 u v sU sV cU cV (x u) (x v) u (x u) = (pmSign (x u) : ℂ) := by
      unfold pinFactor2
      rw [if_pos rfl, if_pos rfl]
    have hfv : pinFactor2 u v sU sV cU cV (x u) (x v) v (x v) = (pmSign (x v) : ℂ) := by
      unfold pinFactor2
      rw [if_neg (Ne.symm huv), if_pos rfl, if_pos rfl]
    have hint : ∀ j ∈ sU ∩ sV, pinFactor2 u v sU sV cU cV (x u) (x v) j (x j)
        = Complex.exp (((cU j * etaSgn (x u) (x j)
            + cV j * etaSgn (x v) (x j) : ℝ) : ℂ) * Complex.I) := by
      intro j hj
      have hju : j ≠ u := fun h => huU (h ▸ (Finset.mem_inter.mp hj).1)
      have hjv : j ≠ v := fun h => hvU (h ▸ (Finset.mem_inter.mp hj).1)
      unfold pinFactor2
      rw [if_neg hju, if_neg hjv, if_pos hj]
    have hU : ∀ j ∈ sU \ sV, pinFactor2 u v sU sV cU cV (x u) (x v) j (x j)
        = Complex.exp (((cU j * etaSgn (x u) (x j) : ℝ) : ℂ) * Complex.I) := by
      intro j hj
      rcases Finset.mem_sdiff.mp hj with ⟨hjU, hjV⟩
      have hju : j ≠ u := fun h => huU (h ▸ hjU)
      have hjv : j ≠ v := fun h => hvU (h ▸ hjU)
      have hjint : j ∉ sU ∩ sV := fun h => hjV (Finset.mem_inter.mp h).2
      unfold pinFactor2
      rw [if_neg hju, if_neg hjv, if_neg hjint, if_pos hjU]
    have hV : ∀ j ∈ sV \ sU, pinFactor2 u v sU sV cU cV (x u) (x v) j (x j)
        = Complex.exp (((cV j * etaSgn (x v) (x j) : ℝ) : ℂ) * Complex.I) := by
      intro j hj
      rcases Finset.mem_sdiff.mp hj with ⟨hjV, hjU⟩
      have hju : j ≠ u := fun h => huV (h ▸ hjV)
      have hjv : j ≠ v := fun h => hvV (h ▸ hjV)
      have hjint : j ∉ sU ∩ sV := fun h => hjU (Finset.mem_inter.mp h).1
      unfold pinFactor2
      rw [if_neg hju, if_neg hjv, if_neg hjint, if_neg hjU, if_pos hjV]
    have hrest : ∀ j ∈ (((Finset.univ.erase u).erase v) \ (sU ∪ sV)),
        pinFactor2 u v sU sV cU cV (x u) (x v) j (x j) = 1 := by
      intro j hj
      rcases Finset.mem_sdiff.mp hj with ⟨hj1, hj2⟩
      rcases Finset.mem_erase.mp hj1 with ⟨hjv, hj1a⟩
      rcases Finset.mem_erase.mp hj1a with ⟨hju, _⟩
      have hjU : j ∉ sU := fun h => hj2 (Finset.mem_union_left _ h)
      have hjV : j ∉ sV := fun h => hj2 (Finset.mem_union_right _ h)
      have hjint : j ∉ sU ∩ sV := fun h => hjU (Finset.mem_inter.mp h).1
      unfold pinFactor2
      rw [if_neg hju, if_neg hjv, if_neg hjint, if_neg hjU, if_neg hjV]
    rw [hfu, hfv, Finset.prod_congr rfl hint, Finset.prod_congr rfl hU,
      Finset.prod_congr rfl hV, Finset.prod_eq_one hrest, mul_one]
    have hexpsplit : Complex.exp ((((∑ m ∈ sU, cU m * etaSgn (x u) (x m))
            + ∑ m ∈ sV, cV m * etaSgn (x v) (x m) : ℝ) : ℂ) * Complex.I)
        = (∏ m ∈ sU, Complex.exp (((cU m * etaSgn (x u) (x m) : ℝ) : ℂ) * Complex.I))
          * ∏ m ∈ sV, Complex.exp (((cV m * etaSgn (x v) (x m) : ℝ) : ℂ) * Complex.I) := by
      rw [← Complex.exp_sum, ← Complex.exp_sum, ← Complex.exp_add]
      congr 1
      rw [← Finset.sum_mul, ← Finset.sum_mul, ← add_mul]
      congr 1
      push_cast
      rfl
    rw [hexpsplit]
    have hprodU : ∏ m ∈ sU, Complex.exp (((cU m * etaSgn (x u) (x m) : ℝ) : ℂ) * Complex.I)
        = (∏ m ∈ sU \ sV, Complex.exp (((cU m * etaSgn (x u) (x m) : ℝ) : ℂ) * Complex.I))
          * ∏ m ∈ sU ∩ sV, Complex.exp (((cU m * etaSgn (x u) (x m) : ℝ) : ℂ) * Complex.I) := by
      rw [← Finset.prod_union (Finset.disjoint_sdiff_inter sU sV), Finset.sdiff_union_inter]
    have hprodV : ∏ m ∈ sV, Complex.exp (((cV m * etaSgn (x v) (x m) : ℝ) : ℂ) * Complex.I)
        = (∏ m ∈ sV \ sU, Complex.exp (((cV m * etaSgn (x v) (x m) : ℝ) : ℂ) * Complex.I))
          * ∏ m ∈ sU ∩ sV, Complex.exp (((cV m * etaSgn (x v) (x m) : ℝ) : ℂ) * Complex.I) := by
      rw [Finset.inter_comm sU sV, ← Finset.prod_union (Finset.disjoint_sdiff_inter sV sU),
        Finset.sdiff_union_inter]
    rw [hprodU, hprodV]
    have hmerge : (∏ m ∈ sU ∩ sV, Complex.exp (((cU m * etaSgn (x u) (x m) : ℝ) : ℂ) * Complex.I))
          * ∏ m ∈ sU ∩ sV, Complex.exp (((cV m * etaSgn (x v) (x m) : ℝ) : ℂ) * Complex.I)
        = ∏ m ∈ sU ∩ sV, Complex.exp (((cU m * etaSgn (x u) (x m)
            + cV m * etaSgn (x v) (x m) : ℝ) : ℂ) * Complex.I) := by
      rw [← Finset.prod_mul_distrib]
      apply Finset.prod_congr rfl
      intro m _
      rw [← Complex.exp_add]
      congr 1
      push_cast
      ring
    rw [show ((pmD u v x : ℝ) : ℂ) = (pmSign (x u) : ℂ) * (pmSign (x v) : ℂ) from by
      unfold pmD
      push_cast
      rfl]
    linear_combination (-((pmSign (x u) : ℂ) * (pmSign (x v) : ℂ)
        * (∏ m ∈ sU \ sV, Complex.exp (((cU m * etaSgn (x u) (x m) : ℝ) : ℂ) * Complex.I))
        * (∏ m ∈ sV \ sU, Complex.exp (((cV m * etaSgn (x v) (x m) : ℝ) : ℂ) * Complex.I))))
      * hmerge
  rw [Fintype.sum_bool]
  have hswap : ∀ a : Bool, a ≠ x u →
      ∑ b : Bool, ∏ j : Fin n, pinFactor2 u v sU sV cU cV a b j (x j) = 0 := by
    intro a ha
    rw [Fintype.sum_bool, hzeroU a true ha, hzeroU a false ha, add_zero]
  have hgood : ∑ b : Bool, ∏ j : Fin n, pinFactor2 u v sU sV cU cV (x u) b j (x j)
      = ∏ j : Fin n, pinFactor2 u v sU sV cU cV (x u) (x v) j (x j) := by
    rw [Fintype.sum_bool]
    cases hxv : x v with
    | false =>
        rw [hzeroV (x u) true (by rw [hxv]; exact fun h => Bool.noConfusion h), zero_add,
          ← hxv]
    | true =>
        rw [hzeroV (x u) false (by rw [hxv]; exact fun h => Bool.noConfusion h), add_zero,
          ← hxv]
  cases hxu : x u with
  | false =>
      rw [hswap true (by rw [hxu]; exact fun h => Bool.noConfusion h), zero_add, ← hxu,
        hgood, hmain]
  | true =>
      rw [hswap false (by rw [hxu]; exact fun h => Bool.noConfusion h), add_zero, ← hxu,
        hgood, hmain]

lemma union_subset_erase_erase {n : ℕ} (u v : Fin n) (sU sV : Finset (Fin n))
    (huU : u ∉ sU) (hvU : v ∉ sU) (huV : u ∉ sV) (hvV : v ∉ sV) :
    sU ∪ sV ⊆ (Finset.univ.erase u).erase v := by
  intro j hj
  have hju : j ≠ u := by
    rcases Finset.mem_union.mp hj with hj' | hj'
    · exact fun he => huU (he ▸ hj')
    · exact fun he => huV (he ▸ hj')
  have hjv : j ≠ v := by
    rcases Finset.mem_union.mp hj with hj' | hj'
    · exact fun he => hvU (he ▸ hj')
    · exact fun he => hvV (he ▸ hj')
  exact Finset.mem_erase.mpr ⟨hjv, Finset.mem_erase.mpr ⟨hju, Finset.mem_univ j⟩⟩

lemma card_split_two_sets {n : ℕ} (u v : Fin n) (huv : u ≠ v) (sU sV : Finset (Fin n))
    (huU : u ∉ sU) (hvU : v ∉ sU) (huV : u ∉ sV) (hvV : v ∉ sV) :
    (sU ∩ sV).card + (sU \ sV).card + (sV \ sU).card
      + ((((Finset.univ.erase u).erase v) \ (sU ∪ sV)).card) + 2 = n := by
  have hsub := union_subset_erase_erase u v sU sV huU hvU huV hvV
  have hcerase : ((Finset.univ.erase u).erase v).card = n - 2 := by
    rw [Finset.card_erase_of_mem (Finset.mem_erase.mpr ⟨Ne.symm huv, Finset.mem_univ v⟩),
      Finset.card_erase_of_mem (Finset.mem_univ u), Finset.card_univ, Fintype.card_fin]
    omega
  have hr := Finset.card_sdiff hsub
  have hle := Finset.card_le_card hsub
  have hq1 : (sU \ sV).card = sU.card - (sU ∩ sV).card := by
    rw [← Finset.sdiff_inter_self_left sU sV]
    exact Finset.card_sdiff (Finset.inter_subset_left)
  have hq2 : (sV \ sU).card = sV.card - (sU ∩ sV).card := by
    rw [← Finset.sdiff_inter_self_left sV sU, Finset.inter_comm sV sU]
    exact Finset.card_sdiff (Finset.inter_subset_right)
  have hpU : (sU ∩ sV).card ≤ sU.card := Finset.card_le_card Finset.inter_subset_left
  have hpV : (sU ∩ sV).card ≤ sV.card := Finset.card_le_card Finset.inter_subset_right
  have hui := Finset.card_union_add_card_inter sU sV
  have hn2 := two_le_of_ne u v huv
  omega

lemma pin_double_factor_prod {n : ℕ} (u v : Fin n) (huv : u ≠ v)
    (sU sV : Finset (Fin n)) (huU : u ∉ sU) (hvU : v ∉ sU) (huV : u ∉ sV) (hvV : v ∉ sV)
    (cU cV : Fin n → ℝ) (a b : Bool) :
    ∏ j : Fin n, (pinFactor2 u v sU sV cU cV a b j false + pinFactor2 u v sU sV cU cV a b j true)
      = (pmSign a : ℂ) * ((pmSign b : ℂ)
          * (((∏ j ∈ sU ∩ sV,
                (2 * (Real.cos (if a = b then cU j + cV j else cU j - cV j) : ℂ)))
              * ((∏ j ∈ sU \ sV, (2 * (Real.cos (cU j) : ℂ)))
                * (∏ j ∈ sV \ sU, (2 * (Real.cos (cV j) : ℂ)))))
            * (2 : ℂ) ^ ((((Finset.univ.erase u).erase v) \ (sU ∪ sV)).card))) := by
  have hfu : pinFactor2 u v sU sV cU cV a b u false + pinFactor2 u v sU sV cU cV a b u true
      = (pmSign a : ℂ) := by
    unfold pinFactor2
    rw [if_pos rfl, if_pos rfl]
    cases a <;> simp
  have hfv : pinFactor2 u v sU sV cU cV a b v false + pinFactor2 u v sU sV cU cV a b v true
      = (pmSign b : ℂ) := by
    unfold pinFactor2
    rw [if_neg (Ne.symm huv), if_neg (Ne.symm huv), if_pos rfl, if_pos rfl]
    cases b <;> simp
  have hint : ∀ j ∈ sU ∩ sV,
      pinFactor2 u v sU sV cU cV a b j false + pinFactor2 u v sU sV cU cV a b j true
        = 2 * (Real.cos (if a = b then cU j + cV j else cU j - cV j) : ℂ) := by
    intro j hj
    have hju : j ≠ u := fun h => huU (h ▸ (Finset.mem_inter.mp hj).1)
    have hjv : j ≠ v := fun h => hvU (h ▸ (Finset.mem_inter.mp hj).1)
    unfold pinFactor2
    rw [if_neg hju, if_neg hju, if_neg hjv, if_neg hjv, if_pos hj, if_pos hj]
    cases a <;> cases b
    · have h1 : (cU j * etaSgn false false + cV j * etaSgn false false : ℝ)
          = -(cU j + cV j) := by
        simp [etaSgn]
        ring
      have h2 : (cU j * etaSgn false true + cV j * etaSgn false true : ℝ)
          = cU j + cV j := by
        simp [etaSgn]
      rw [h1, h2, if_pos rfl]
      simp only [Complex.ofReal_neg]
      linear_combination cexp_add_cexp_neg (cU j + cV j)
    · have h1 : (cU j * etaSgn false false + cV j * etaSgn true false : ℝ)
          = -(cU j - cV j) := by
        simp [etaSgn]
        ring
      have h2 : (cU j * etaSgn false true + cV j * etaSgn true true : ℝ)
          = cU j - cV j := by
        simp [etaSgn]
        ring
      rw [h1, h2, if_neg (by exact fun h => Bool.noConfusion h)]
      simp only [Complex.ofReal_neg]
      linear_combination cexp_add_cexp_neg (cU j - cV j)
    · have h1 : (cU j * etaSgn true false + cV j * etaSgn false false : ℝ)
          = cU j - cV j := by
        simp [etaSgn]
        ring
      have h2 : (cU j * etaSgn true true + cV j * etaSgn false true : ℝ)
          = -(cU j - cV j) := by
        simp [etaSgn]
        ring
      rw [h1, h2, if_neg (by exact fun h => Bool.noConfusion h)]
      simp only [Complex.ofReal_neg]
      linear_combination cexp_add_cexp_neg (cU j - cV j)
    · have h1 : (cU j * etaSgn true false + cV j * etaSgn true false : ℝ)
          = cU j + cV j := by
        simp [etaSgn]
      have h2 : (cU j * etaSgn true true + cV j * etaSgn true true : ℝ)
          = -(cU j + cV j) := by
        simp [etaSgn]
        ring
      rw [h1, h2, if_pos rfl]
      simp only [Complex.ofReal_neg]
      linear_combination cexp_add_cexp_neg (cU j + cV j)
  have hU : ∀ j ∈ sU \ sV,
      pinFactor2 u v sU sV cU cV a b j false + pinFactor2 u v sU sV cU cV a b j true
        = 2 * (Real.cos (cU j) : ℂ) := by
    intro j hj
    rcases Finset.mem_sdiff.mp hj with ⟨hjU, hjV⟩
    have hju : j ≠ u := fun h => huU (h ▸ hjU)
    have hjv : j ≠ v := fun h => hvU (h ▸ hjU)
    have hjint : j ∉ sU ∩ sV := fun h => hjV (Finset.mem_inter.mp h).2
    unfold pinFactor2
    rw [if_neg hju, if_neg hju, if_neg hjv, if_neg hjv, if_neg hjint, if_neg hjint,
      if_pos hjU, if_pos hjU]
    cases a
    · have h1 : (cU j * etaSgn false false : ℝ) = -(cU j) := by simp [etaSgn]
      have h2 : (cU j * etaSgn false true : ℝ) = cU j := by simp [etaSgn]
      rw [h1, h2]
      simp only [Complex.ofReal_neg]
      linear_combination cexp_add_cexp_neg (cU j)
    · have h1 : (cU j * etaSgn true false : ℝ) = cU j := by simp [etaSgn]
      have h2 : (cU j * etaSgn true true : ℝ) = -(cU j) := by simp [etaSgn]
      rw [h1, h2]
      simp only [Complex.ofReal_neg]
      linear_combination cexp_add_cexp_neg (cU j)
  have hV : ∀ j ∈ sV \ sU,
      pinFactor2 u v sU sV cU cV a b j false + pinFactor2 u v sU sV cU cV a b j true
        = 2 * (Real.cos (cV j) : ℂ) := by
    intro j hj
    rcases Finset.mem_sdiff.mp hj with ⟨hjV, hjU⟩
    have hju : j ≠ u := fun h => huV (h ▸ hjV)
    have hjv : j ≠ v := fun h => hvV (h ▸ hjV)
    have hjint : j ∉ sU ∩ sV := fun h => hjU (Finset.mem_inter.mp h).1
    unfold pinFactor2
    rw [if_neg hju, if_neg hju, if_neg hjv, if_neg hjv, if_neg hjint, if_neg hjint,
      if_neg hjU, if_neg hjU, if_pos hjV, if_pos hjV]
    cases b
    · have h1 : (cV j * etaSgn false false : ℝ) = -(cV j) := by simp [etaSgn]
      have h2 : (cV j * etaSgn false true : ℝ) = cV j := by simp [etaSgn]
      rw [h1, h2]
      simp only [Complex.ofReal_neg]
      linear_combination cexp_add_cexp_neg (cV j)
    · have h1 : (cV j * etaSgn true false : ℝ) = cV j := by simp [etaSgn]
      have h2 : (cV j * etaSgn true true : ℝ) = -(cV j) := by simp [etaSgn]
      rw [h1, h2]
      simp only [Complex.ofReal_neg]
      linear_combination cexp_add_cexp_neg (cV j)
  have hrest : ∀ j ∈ (((Finset.univ.erase u).erase v) \ (sU ∪ sV)),
      pinFactor2 u v sU sV cU cV a b j false + pinFactor2 u v sU sV cU cV a b j true = 2 := by
    intro j hj
    rcases Finset.mem_sdiff.mp hj with ⟨hj1, hj2⟩
    rcases Finset.mem_erase.mp hj1 with ⟨hjv, hj1a⟩
    rcases Finset.mem_erase.mp hj1a with ⟨hju, _⟩
    have hjU : j ∉ sU := fun h => hj2 (Finset.mem_union_left _ h)
    have hjV : j ∉ sV := fun h => hj2 (Finset.mem_union_right _ h)
    have hjint : j ∉ sU ∩ sV := fun h => hjU (Finset.mem_inter.mp h).1
    unfold pinFactor2
    rw [if_neg hju, if_neg hju, if_neg hjv, if_neg hjv, if_neg hjint, if_neg hjint,
      if_neg hjU, if_neg hjU, if_neg hjV, if_neg hjV]
    norm_num
  rw [prod_split_two_sets u v huv sU sV huU hvU huV hvV
    (fun j => pinFactor2 u v sU sV cU cV a b j false + pinFactor2 u v sU sV cU cV a b j true)]
  rw [hfu, hfv, Finset.prod_congr rfl hint, Finset.prod_congr rfl hU,
    Finset.prod_congr rfl hV, Finset.prod_congr rfl hrest, Finset.prod_const]

/-- The double-flip phase sum: the triangle-correction term of the
closed-form formula. -/
lemma sum_pmD_double_flip_phase {n : ℕ} (u v : Fin n) (huv : u ≠ v)
    (sU sV : Finset (Fin n)) (huU : u ∉ sU) (hvU : v ∉ sU) (huV : u ∉ sV) (hvV : v ∉ sV)
    (cU cV : Fin n → ℝ) :
    ∑ x : Basis n, ((pmD u v x : ℝ) : ℂ)
        * Complex.exp ((((∑ m ∈ sU, cU m * etaSgn (x u) (x m))
            + ∑ m ∈ sV, cV m * etaSgn (x v) (x m) : ℝ) : ℂ) * Complex.I)
      = (2 : ℂ) ^ n * (1 / 2 : ℂ)
        * ((∏ j ∈ sU ∩ sV, (Real.cos (cU j + cV j) : ℂ))
            - ∏ j ∈ sU ∩ sV, (Real.cos (cU j - cV j) : ℂ))
        * ((∏ j ∈ sU \ sV, (Real.cos (cU j) : ℂ)) * ∏ j ∈ sV \ sU, (Real.cos (cV j) : ℂ)) := by
  rw [Finset.sum_congr rfl
    (fun x _ => pin_double_pointwise u v huv sU sV huU hvU huV hvV cU cV x)]
  rw [Finset.sum_comm]
  rw [Finset.sum_congr rfl (fun a _ => Finset.sum_comm)]
  rw [Finset.sum_congr rfl (fun a _ => Finset.sum_congr rfl
    (fun b _ => sum_prod_bool (pinFactor2 u v sU sV cU cV a b)))]
  rw [Fintype.sum_bool]
  rw [Fintype.sum_bool, Fintype.sum_bool]
  rw [pin_double_factor_prod u v huv sU sV huU hvU huV hvV cU cV true true,
    pin_double_factor_prod u v huv sU sV huU hvU huV hvV cU cV true false,
    pin_double_factor_prod u v huv sU sV huU hvU huV hvV cU cV false true,
    pin_double_factor_prod u v huv sU sV huU hvU huV hvV cU cV false false]
  simp only [if_pos rfl, if_neg (fun h : (true : Bool) = false => Bool.noConfusion h),
    if_neg (fun h : (false : Bool) = true => Bool.noConfusion h)]
  simp only [Finset.prod_mul_distrib, Finset.prod_const]
  have hpow : (2 : ℂ) ^ (sU ∩ sV).card * ((2 : ℂ) ^ (sU \ sV).card
        * (2 : ℂ) ^ (sV \ sU).card)
        * (2 : ℂ) ^ ((((Finset.univ.erase u).erase v) \ (sU ∪ sV)).card) * 4
      = (2 : ℂ) ^ n := by
    rw [show (4 : ℂ) = 2 ^ 2 by norm_num, ← pow_add, ← pow_add, ← pow_add, ← pow_add]
    congr 1
    have := card_split_two_sets u v huv sU sV huU hvU huV hvV
    omega
  simp only [pmSign, if_true, Bool.false_eq_true, if_false, Complex.ofReal_one,
    Complex.ofReal_neg]
  linear_combination ((1 / 2 : ℂ)
      * ((∏ j ∈ sU ∩ sV, (Real.cos (cU j + cV j) : ℂ))
          - ∏ j ∈ sU ∩ sV, (Real.cos (cU j - cV j) : ℂ))
      * ((∏ j ∈ sU \ sV, (Real.cos (cU j) : ℂ)) * ∏ j ∈ sV \ sU, (Real.cos (cV j) : ℂ)))
    * hpow

/-! ## Graph-side infrastructure for the depth-1 equivalence -/

/-- `all_cuv_vals` as built at qaoa_core.py:242 from the spec-modelled
`check_edge_cut`: one 0/1 cut-indicator row per edge of the graph. -/
def cuvTable {n : ℕ} (G : MCGraph n) : List (Basis n → ℝ) :=
  G.edges.map (fun e => fun x => check_edge_cut x e.1 e.2)

/-- Two ordered pairs denote the same undirected edge. -/
def sameEdge {n : ℕ} (e f : Fin n × Fin n) : Prop := e = f ∨ e = (f.2, f.1)

/-- A well-formed simple-graph edge list: no self-loops and no undirected
edge listed twice (in either orientation). -/
structure IsSimpleEdgeList {n : ℕ} (G : MCGraph n) : Prop where
  no_loop : ∀ e ∈ G.edges, e.1 ≠ e.2
  nodup : ∀ i j : Fin G.edges.length,
    sameEdge (G.edges.get i) (G.edges.get j) → i = j

/-- Indices of the edges incident to `v`. -/
def incIdx {n : ℕ} (G : MCGraph n) (v : Fin n) : Finset (Fin G.edges.length) :=
  Finset.univ.filter (fun i => (G.edges.get i).1 = v ∨ (G.edges.get i).2 = v)

/-- The endpoint of edge `i` that is not `v`. -/
def otherEnd {n : ℕ} (G : MCGraph n) (v : Fin n) (i : Fin G.edges.length) : Fin n :=
  if (G.edges.get i).1 = v then (G.edges.get i).2 else (G.edges.get i).1

lemma mem_nbrs_iff {n : ℕ} (G : MCGraph n) (v m : Fin n) :
    m ∈ nbrs G v ↔ ∃ i : Fin G.edges.length,
      G.edges.get i = (v, m) ∨ G.edges.get i = (m, v) := by
  unfold nbrs
  simp only [Finset.mem_filter, Finset.mem_univ, true_and, List.any_eq_true,
    Bool.or_eq_true, beq_iff_eq]
  constructor
  · rintro ⟨e, he, hor⟩
    rcases List.mem_iff_get.mp he with ⟨i, rfl⟩
    exact ⟨i, hor⟩
  · rintro ⟨i, hor⟩
    exact ⟨G.edges.get i, List.get_mem _ _ i.isLt, hor⟩

lemma otherEnd_spec {n : ℕ} (G : MCGraph n) (v : Fin n) (i : Fin G.edges.length)
    (hi : i ∈ incIdx G v) :
    G.edges.get i = (v, otherEnd G v i) ∨ G.edges.get i = (otherEnd G v i, v) := by
  have hor := (Finset.mem_filter.mp hi).2
  unfold otherEnd
  by_cases h1 : (G.edges.get i).1 = v
  · rw [if_pos h1]
    left
    exact Prod.ext h1 rfl
  · rw [if_neg h1]
    right
    rcases hor with h | h
    · exact absurd h h1
    · exact Prod.ext rfl h

lemma otherEnd_mem_nbrs {n : ℕ} (G : MCGraph n) (v : Fin n) (i : Fin G.edges.length)
    (hi : i ∈ incIdx G v) : otherEnd G v i ∈ nbrs G v :=
  (mem_nbrs_iff G v _).mpr ⟨i, otherEnd_spec G v i hi⟩

lemma otherEnd_ne {n : ℕ} (G : MCGraph n) (hs : IsSimpleEdgeList G) (v : Fin n)
    (i : Fin G.edges.length) (hi : i ∈ incIdx G v) : otherEnd G v i ≠ v := by
  have hloop := hs.no_loop (G.edges.get i) (List.get_mem _ _ i.isLt)
  rcases otherEnd_spec G v i hi with h | h
  · intro he
    apply hloop
    rw [h, he]
  · intro he
    apply hloop
    rw [h, he]

lemma otherEnd_inj {n : ℕ} (G : MCGraph n) (hs : IsSimpleEdgeList G) (v : Fin n)
    (i j : Fin G.edges.length) (hi : i ∈ incIdx G v) (hj : j ∈ incIdx G v)
    (heq : otherEnd G v i = otherEnd G v j) : i = j := by
  apply hs.nodup
  rcases otherEnd_spec G v i hi with h1 | h1 <;> rcases otherEnd_spec G v j hj with h2 | h2
  · exact Or.inl (by rw [h1, heq, h2])
  · exact Or.inr (by rw [h1, heq, h2])
  · exact Or.inr (by rw [h1, heq, h2])
  · exact Or.inl (by rw [h1, heq, h2])

lemma exists_incIdx_of_mem_nbrs {n : ℕ} (G : MCGraph n) (hs : IsSimpleEdgeList G)
    (v m : Fin n) (hm : m ∈ nbrs G v) :
    ∃ i ∈ incIdx G v, otherEnd G v i = m := by
  rcases (mem_nbrs_iff G v m).mp hm with ⟨i, h | h⟩
  · have h1 : (G.edges.get i).1 = v := by rw [h]
    refine ⟨i, Finset.mem_filter.mpr ⟨Finset.mem_univ i, Or.inl h1⟩, ?_⟩
    unfold otherEnd
    rw [if_pos h1, h]
  · have hmv : m ≠ v := by
      have := hs.no_loop (G.edges.get i) (List.get_mem _ _ i.isLt)
      rw [h] at this
      exact this
    have h1 : (G.edges.get i).1 ≠ v := by rw [h]; exact hmv
    have h2 : (G.edges.get i).2 = v := by rw [h]
    refine ⟨i, Finset.mem_filter.mpr ⟨Finset.mem_univ i, Or.inr h2⟩, ?_⟩
    unfold otherEnd
    rw [if_neg h1, h]

lemma sum_incIdx_eq_sum_nbrs {n : ℕ} (G : MCGraph n) (hs : IsSimpleEdgeList G) (v : Fin n)
    (f : Fin G.edges.length → ℝ) (g : Fin n → ℝ)
    (hfg : ∀ i ∈ incIdx G v, f i = g (otherEnd G v i)) :
    ∑ i ∈ incIdx G v, f i = ∑ m ∈ nbrs G v, g m := by
  apply Finset.sum_bij (fun i _ => otherEnd G v i)
  · intro i hi
    exact otherEnd_mem_nbrs G v i hi
  · intro i hi j hj heq
    exact otherEnd_inj G hs v i j hi hj heq
  · intro m hm
    rcases exists_incIdx_of_mem_nbrs G hs v m hm with ⟨i, hi, heq⟩
    exact ⟨i, hi, heq⟩
  · exact hfg

lemma findIdx_eq_of_minimal {α : Type} (p : α → Bool) (l : List α) (i : ℕ)
    (hi : i < l.length) (hp : p (l.get ⟨i, hi⟩) = true)
    (hmin : ∀ j (hj : j < l.length), j < i → p (l.get ⟨j, hj⟩) = false) :
    l.findIdx p = i := by
  induction l generalizing i with
  | nil => simp at hi
  | cons x xs ih =>
      cases i with
      | zero =>
          have hx : p x = true := hp
          simp [List.findIdx_cons, hx]
      | succ i =>
          have hx : p x = false := hmin 0 (by omega) (by omega)
          rw [List.findIdx_cons, hx]
          simp only [cond_false]
          have : xs.findIdx p = i := by
            refine ih i (by simpa using hi) hp ?_
            intro j hj hlt
            exact hmin (j + 1) (by simpa using hj) (by omega)
          omega

lemma edgeIndex_eq_of {n : ℕ} (G : MCGraph n) (hs : IsSimpleEdgeList G)
    (i : Fin G.edges.length) (p q : Fin n)
    (hpq : G.edges.get i = (p, q) ∨ G.edges.get i = (q, p)) :
    edgeIndex G p q = some i.val := by
  unfold edgeIndex
  rw [List.findIdx?_eq_some_iff_findIdx_eq]
  refine ⟨i.isLt, findIdx_eq_of_minimal _ _ i.val i.isLt ?_ ?_⟩
  · simp only [List.get_eq_getElem] at hpq
    rcases hpq with h | h <;> simp [h]
  · intro j hj hlt
    by_contra hcon
    have htrue : (G.edges.get ⟨j, hj⟩ == (p, q) || G.edges.get ⟨j, hj⟩ == (q, p)) = true := by
      revert hcon
      cases (G.edges.get ⟨j, hj⟩ == (p, q) || G.edges.get ⟨j, hj⟩ == (q, p)) <;> simp
    simp only [Bool.or_eq_true, beq_iff_eq] at htrue
    have hsame : sameEdge (G.edges.get ⟨j, hj⟩) (G.edges.get i) := by
      rcases htrue with h' | h' <;> rcases hpq with h'' | h''
      · exact Or.inl (h'.trans h''.symm)
      · exact Or.inr (by rw [h', h''])
      · exact Or.inr (by rw [h', h''])
      · exact Or.inl (h'.trans h''.symm)
    have := hs.nodup ⟨j, hj⟩ i hsame
    have : j = i.val := congrArg Fin.val this
    omega

lemma getD_range_map (f : ℕ → ℝ) (E i : ℕ) (h : i < E) :
    ((List.range E).map f).getD i 0 = f i := by
  rw [List.getD_eq_getElem?_getD]
  simp [List.getElem?_map, List.getElem?_range h]

/-- Per-neighbour gamma read directly from a raw gamma list via the edge index. -/
def nbrGamma {n : ℕ} (G : MCGraph n) (gam : List ℝ) (v m : Fin n) : ℝ :=
  match edgeIndex G v m with
  | some i => gam.getD i 0
  | none => 0

lemma nbrGamma_eq_of {n : ℕ} (G : MCGraph n) (hs : IsSimpleEdgeList G) (gam : List ℝ)
    (i : Fin G.edges.length) (p q : Fin n)
    (hpq : G.edges.get i = (p, q) ∨ G.edges.get i = (q, p)) :
    nbrGamma G gam p q = gam.getD i.val 0 := by
  unfold nbrGamma
  rw [edgeIndex_eq_of G hs i p q hpq]

lemma nbrGamma_symm {n : ℕ} (G : MCGraph n) (gam : List ℝ) (p q : Fin n) :
    nbrGamma G gam p q = nbrGamma G gam q p := by
  unfold nbrGamma edgeIndex
  have : (fun e => e == (p, q) || e == (q, p)) = (fun e => e == (q, p) || e == (p, q)) := by
    funext e
    exact Bool.or_comm _ _
  rw [this]

lemma gammaOf_setGammaAttr_eq {n : ℕ} (G : MCGraph n) (hs : IsSimpleEdgeList G)
    (hwlen : G.weights.length = G.edges.length) (gam : List ℝ)
    (i : Fin G.edges.length) (p q : Fin n)
    (hpq : G.edges.get i = (p, q) ∨ G.edges.get i = (q, p)) :
    gammaOf (setGammaAttr G gam) p q = gam.getD i.val 0 * G.weights.getD i.val 0 := by
  unfold gammaOf
  have hsame : edgeIndex (setGammaAttr G gam) p q = edgeIndex G p q := rfl
  rw [hsame, edgeIndex_eq_of G hs i p q hpq]
  show ((List.range G.edges.length).map
    (fun j => gam.getD j 0 * G.weights.getD j 0)).getD i.val 0 = _
  exact getD_range_map _ _ _ i.isLt

/-! ## The phase function of the depth-1 phase layer -/

/-- Total phase `Σ_i gammas[i] * all_cuv_vals[i, x]` accumulated by `apply_uc`. -/
def Gammaf {n : ℕ} (cuv : List (Basis n → ℝ)) (gam : List ℝ) (x : Basis n) : ℝ :=
  ∑ i ∈ Finset.range gam.length, gam.getD i 0 * (cuv.getD i (fun _ => 0)) x

lemma apply_uc_phase {n : ℕ} (cuv : List (Basis n → ℝ)) (gam : List ℝ)
    (ψ : Basis n → ℂ) (x : Basis n) :
    apply_uc cuv gam ψ x
      = Complex.exp (-((Gammaf cuv gam x : ℝ) : ℂ) * Complex.I) * ψ x := by
  unfold apply_uc Gammaf
  congr 1
  rw [← Complex.exp_sum]
  congr 1
  have hterm : ∀ i ∈ Finset.range gam.length,
      -Complex.I * ((gam.getD i 0 : ℝ) : ℂ) * ((cuv.getD i (fun _ => 0) x : ℝ) : ℂ)
        = ((gam.getD i 0 * cuv.getD i (fun _ => 0) x : ℝ) : ℂ) * (-Complex.I) := by
    intro i _
    push_cast
    ring
  rw [Finset.sum_congr rfl hterm, ← Finset.sum_mul]
  push_cast
  ring

lemma cuvTable_length {n : ℕ} (G : MCGraph n) : (cuvTable G).length = G.edges.length :=
  List.length_map _ _

lemma cuvTable_getD {n : ℕ} (G : MCGraph n) (i : Fin G.edges.length) :
    (cuvTable G).getD i.val (fun _ => 0)
      = fun x => check_edge_cut x (G.edges.get i).1 (G.edges.get i).2 := by
  unfold cuvTable
  rw [List.getD_eq_getElem?_getD]
  simp [List.getElem?_map, List.getElem?_eq_getElem i.isLt]

lemma cuvTable_getD_apply {n : ℕ} (G : MCGraph n) (i : Fin G.edges.length) (x : Basis n) :
    (cuvTable G).getD i.val (fun _ => 0) x
      = check_edge_cut x (G.edges.get i).1 (G.edges.get i).2 :=
  congrFun (cuvTable_getD G i) x

lemma etaSgn_symm (a b : Bool) : etaSgn a b = etaSgn b a := by
  cases a <;> cases b <;> simp [etaSgn]

lemma etaSgn_not_right (a b : Bool) : etaSgn a (!b) = -etaSgn a b := by
  cases a <;> cases b <;> simp [etaSgn]

lemma pmD_symm {n : ℕ} (u v : Fin n) (x : Basis n) : pmD u v x = pmD v u x :=
  mul_comm _ _

lemma check_edge_cut_eq_pmD {n : ℕ} (x : Basis n) (u v : Fin n) :
    check_edge_cut x u v = (1 - pmD u v x) / 2 := by
  unfold check_edge_cut pmD pmSign
  cases hxu : x u <;> cases hxv : x v <;> norm_num [hxu, hxv]

lemma check_edge_cut_flip_other {n : ℕ} (x : Basis n) (p q w : Fin n)
    (hp : p ≠ w) (hq : q ≠ w) :
    check_edge_cut (flipAt w x) p q = check_edge_cut x p q := by
  unfold check_edge_cut
  rw [flipAt_apply_other w p x hp, flipAt_apply_other w q x hq]

lemma check_edge_cut_flip_fst {n : ℕ} (x : Basis n) (p q : Fin n) (hpq : p ≠ q) :
    check_edge_cut x p q - check_edge_cut (flipAt p x) p q = etaSgn (x p) (x q) := by
  unfold check_edge_cut etaSgn
  rw [flipAt_apply_self, flipAt_apply_other p q x (Ne.symm hpq)]
  cases hxp : x p <;> cases hxq : x q <;> norm_num [hxp, hxq]

lemma check_edge_cut_flip_snd {n : ℕ} (x : Basis n) (p q : Fin n) (hpq : p ≠ q) :
    check_edge_cut x p q - check_edge_cut (flipAt q x) p q = etaSgn (x q) (x p) := by
  unfold check_edge_cut etaSgn
  rw [flipAt_apply_self, flipAt_apply_other q p x hpq]
  cases hxp : x p <;> cases hxq : x q <;> norm_num [hxp, hxq]

lemma mem_nbrs_symm {n : ℕ} (G : MCGraph n) (u v : Fin n) (h : v ∈ nbrs G u) :
    u ∈ nbrs G v := by
  rcases (mem_nbrs_iff G u v).mp h with ⟨i, hi | hi⟩
  · exact (mem_nbrs_iff G v u).mpr ⟨i, Or.inr hi⟩
  · exact (mem_nbrs_iff G v u).mpr ⟨i, Or.inl hi⟩

lemma self_not_mem_nbrs {n : ℕ} (G : MCGraph n) (hs : IsSimpleEdgeList G) (v : Fin n) :
    v ∉ nbrs G v := by
  intro h
  rcases (mem_nbrs_iff G v v).mp h with ⟨i, hi | hi⟩ <;>
    exact hs.no_loop (G.edges.get i) (List.get_mem _ _ i.isLt) (by rw [hi])

/-- Single-flip phase difference: flipping qubit `v` changes the total phase
by the signed sum of the gammas of the edges at `v`. -/
lemma Gammaf_sub_flip {n : ℕ} (G : MCGraph n) (hs : IsSimpleEdgeList G) (gam : List ℝ)
    (hglen : gam.length = G.edges.length) (v : Fin n) (x : Basis n) :
    Gammaf (cuvTable G) gam x - Gammaf (cuvTable G) gam (flipAt v x)
      = ∑ m ∈ nbrs G v, nbrGamma G gam v m * etaSgn (x v) (x m) := by
  unfold Gammaf
  rw [← Finset.sum_sub_distrib, hglen]
  rw [← Fin.sum_univ_eq_sum_range (fun i =>
    gam.getD i 0 * (cuvTable G).getD i (fun _ => 0) x
      - gam.getD i 0 * (cuvTable G).getD i (fun _ => 0) (flipAt v x))]
  have hterm : ∀ i : Fin G.edges.length,
      gam.getD i.val 0 * (cuvTable G).getD i.val (fun _ => 0) x
        - gam.getD i.val 0 * (cuvTable G).getD i.val (fun _ => 0) (flipAt v x)
      = if i ∈ incIdx G v then
          gam.getD i.val 0 * etaSgn (x v) (x (otherEnd G v i)) else 0 := by
    intro i
    rw [cuvTable_getD_apply G i x, cuvTable_getD_apply G i (flipAt v x)]
    have hloop := hs.no_loop (G.edges.get i) (List.get_mem _ _ i.isLt)
    by_cases hinc : i ∈ incIdx G v
    · rw [if_pos hinc]
      have hor := (Finset.mem_filter.mp hinc).2
      by_cases h1 : (G.edges.get i).1 = v
      · have hoth : otherEnd G v i = (G.edges.get i).2 := by
          unfold otherEnd
          rw [if_pos h1]
        rw [hoth, ← mul_sub, h1]
        rw [check_edge_cut_flip_fst x v (G.edges.get i).2 (h1 ▸ hloop)]
      · have h2 : (G.edges.get i).2 = v := by
          rcases hor with h | h
          · exact absurd h h1
          · exact h
        have hoth : otherEnd G v i = (G.edges.get i).1 := by
          unfold otherEnd
          rw [if_neg h1]
        rw [hoth, ← mul_sub, h2]
        rw [check_edge_cut_flip_snd x (G.edges.get i).1 v (h2 ▸ hloop)]
    · rw [if_neg hinc]
      have hor : ¬((G.edges.get i).1 = v ∨ (G.edges.get i).2 = v) := by
        intro h
        exact hinc (Finset.mem_filter.mpr ⟨Finset.mem_univ i, h⟩)
      push_neg at hor
      rw [check_edge_cut_flip_other x _ _ v hor.1 hor.2]
      ring
  rw [Finset.sum_congr rfl (fun i _ => hterm i), Finset.sum_ite_mem, Finset.univ_inter]
  refine sum_incIdx_eq_sum_nbrs G hs v _ _ (fun i hi => ?_)
  congr 1
  exact (nbrGamma_eq_of G hs gam i v (otherEnd G v i) (otherEnd_spec G v i hi)).symm

/-- Double-flip phase difference: flipping both endpoints of an edge cancels
that edge's own gamma and leaves the signed gammas of the two punctured
neighbourhoods. -/
lemma Gammaf_sub_double_flip {n : ℕ} (G : MCGraph n) (hs : IsSimpleEdgeList G)
    (gam : List ℝ) (hglen : gam.length = G.edges.length) (u v : Fin n) (huv : u ≠ v)
    (hadj : v ∈ nbrs G u) (x : Basis n) :
    Gammaf (cuvTable G) gam x - Gammaf (cuvTable G) gam (flipAt v (flipAt u x))
      = (∑ m ∈ (nbrs G u).erase v, nbrGamma G gam u m * etaSgn (x u) (x m))
        + ∑ m ∈ (nbrs G v).erase u, nbrGamma G gam v m * etaSgn (x v) (x m) := by
  have h1 := Gammaf_sub_flip G hs gam hglen u x
  have h2 := Gammaf_sub_flip G hs gam hglen v (flipAt u x)
  have hu_adj : u ∈ nbrs G v := mem_nbrs_symm G u v hadj
  have e2 : ∑ m ∈ nbrs G v,
        nbrGamma G gam v m * etaSgn ((flipAt u x) v) ((flipAt u x) m)
      = nbrGamma G gam v u * (-etaSgn (x v) (x u))
        + ∑ m ∈ (nbrs G v).erase u, nbrGamma G gam v m * etaSgn (x v) (x m) := by
    rw [← Finset.add_sum_erase (nbrs G v) _ hu_adj]
    congr 1
    · rw [flipAt_apply_other u v x (Ne.symm huv), flipAt_apply_self, etaSgn_not_right]
    · refine Finset.sum_congr rfl (fun m hm => ?_)
      have hmu : m ≠ u := Finset.ne_of_mem_erase hm
      rw [flipAt_apply_other u v x (Ne.symm huv), flipAt_apply_other u m x hmu]
  have e1 : ∑ m ∈ nbrs G u, nbrGamma G gam u m * etaSgn (x u) (x m)
      = nbrGamma G gam u v * etaSgn (x u) (x v)
        + ∑ m ∈ (nbrs G u).erase v, nbrGamma G gam u m * etaSgn (x u) (x m) :=
    (Finset.add_sum_erase (nbrs G u) _ hadj).symm
  have key : Gammaf (cuvTable G) gam x - Gammaf (cuvTable G) gam (flipAt v (flipAt u x))
      = (Gammaf (cuvTable G) gam x - Gammaf (cuvTable G) gam (flipAt u x))
        + (Gammaf (cuvTable G) gam (flipAt u x)
            - Gammaf (cuvTable G) gam (flipAt v (flipAt u x))) := by
    ring
  rw [key, h1, h2, e2, e1, nbrGamma_symm G gam v u, etaSgn_symm (x v) (x u)]
  ring

/-- Pairing of the phase-layer state against its own conjugate: only the
phase difference survives, scaled by the uniform weight `2^{-n}`. -/
lemma conj_phase_pair {n : ℕ} (cuv : List (Basis n → ℝ)) (gam : List ℝ) (x y : Basis n) :
    (starRingEnd ℂ) (apply_uc cuv gam (uniformState n) x)
        * apply_uc cuv gam (uniformState n) y
      = ((((2 : ℝ) ^ n)⁻¹ : ℝ) : ℂ)
        * Complex.exp (((Gammaf cuv gam x - Gammaf cuv gam y : ℝ) : ℂ) * Complex.I) := by
  rw [apply_uc_phase, apply_uc_phase]
  unfold uniformState
  rw [map_mul]
  rw [← Complex.exp_conj]
  have hconj : (starRingEnd ℂ) (-((Gammaf cuv gam x : ℝ) : ℂ) * Complex.I)
      = ((Gammaf cuv gam x : ℝ) : ℂ) * Complex.I := by
    simp [Complex.conj_I]
  rw [hconj]
  have hinv : (starRingEnd ℂ) ((((Real.sqrt (2 ^ n) : ℝ) : ℂ))⁻¹)
      = (((Real.sqrt (2 ^ n) : ℝ) : ℂ))⁻¹ := by
    rw [map_inv₀, Complex.conj_ofReal]
  rw [hinv]
  have hsq : (((Real.sqrt (2 ^ n) : ℝ) : ℂ))⁻¹ * (((Real.sqrt (2 ^ n) : ℝ) : ℂ))⁻¹
      = ((((2 : ℝ) ^ n)⁻¹ : ℝ) : ℂ) := by
    rw [← mul_inv]
    rw [show ((Real.sqrt (2 ^ n) : ℝ) : ℂ) * ((Real.sqrt (2 ^ n) : ℝ) : ℂ)
        = (((Real.sqrt (2 ^ n) * Real.sqrt (2 ^ n) : ℝ)) : ℂ) from by push_cast; ring]
    rw [Real.mul_self_sqrt (by positivity)]
    push_cast
    ring
  have hexp : Complex.exp (((Gammaf cuv gam x : ℝ) : ℂ) * Complex.I)
        * Complex.exp (-((Gammaf cuv gam y : ℝ) : ℂ) * Complex.I)
      = Complex.exp (((Gammaf cuv gam x - Gammaf cuv gam y : ℝ) : ℂ) * Complex.I) := by
    rw [← Complex.exp_add]
    congr 1
    push_cast
    ring
  calc Complex.exp (((Gammaf cuv gam x : ℝ) : ℂ) * Complex.I)
        * (((Real.sqrt (2 ^ n) : ℝ) : ℂ))⁻¹
        * (Complex.exp (-((Gammaf cuv gam y : ℝ) : ℂ) * Complex.I)
            * (((Real.sqrt (2 ^ n) : ℝ) : ℂ))⁻¹)
      = ((((Real.sqrt (2 ^ n) : ℝ) : ℂ))⁻¹ * (((Real.sqrt (2 ^ n) : ℝ) : ℂ))⁻¹)
          * (Complex.exp (((Gammaf cuv gam x : ℝ) : ℂ) * Complex.I)
              * Complex.exp (-((Gammaf cuv gam y : ℝ) : ℂ) * Complex.I)) := by
        ring
    _ = ((((2 : ℝ) ^ n)⁻¹ : ℝ) : ℂ)
          * Complex.exp (((Gammaf cuv gam x - Gammaf cuv gam y : ℝ) : ℂ) * Complex.I) := by
        rw [hsq, hexp]

lemma conj_phase_pair_self {n : ℕ} (cuv : List (Basis n → ℝ)) (gam : List ℝ) (x : Basis n) :
    (starRingEnd ℂ) (apply_uc cuv gam (uniformState n) x)
        * apply_uc cuv gam (uniformState n) x
      = ((((2 : ℝ) ^ n)⁻¹ : ℝ) : ℂ) := by
  rw [conj_phase_pair, sub_self]
  simp

/-- Graph form of the single-flip phase sum, flip at the second endpoint. -/
lemma graph_sum_flip_q {n : ℕ} (G : MCGraph n) (hs : IsSimpleEdgeList G)
    (gam : List ℝ) (hglen : gam.length = G.edges.length) (p q : Fin n) (hpq : p ≠ q)
    (hadj : q ∈ nbrs G p) :
    ∑ x : Basis n, ((pmD p q x : ℝ) : ℂ) * Complex.exp
        (((Gammaf (cuvTable G) gam x - Gammaf (cuvTable G) gam (flipAt q x) : ℝ) : ℂ)
          * Complex.I)
      = (((2 : ℝ) ^ n : ℝ) : ℂ) * (-Complex.I) * ((Real.sin (nbrGamma G gam q p) : ℝ) : ℂ)
        * ∏ m ∈ (nbrs G q).erase p, ((Real.cos (nbrGamma G gam q m) : ℝ) : ℂ) := by
  rw [Finset.sum_congr rfl (fun x _ => by rw [Gammaf_sub_flip G hs gam hglen q x])]
  exact sum_pmD_single_flip_phase p q hpq (nbrs G q) (mem_nbrs_symm G p q hadj)
    (self_not_mem_nbrs G hs q) (fun m => nbrGamma G gam q m)

/-- Graph form of the single-flip phase sum, flip at the first endpoint. -/
lemma graph_sum_flip_p {n : ℕ} (G : MCGraph n) (hs : IsSimpleEdgeList G)
    (gam : List ℝ) (hglen : gam.length = G.edges.length) (p q : Fin n) (hpq : p ≠ q)
    (hadj : q ∈ nbrs G p) :
    ∑ x : Basis n, ((pmD p q x : ℝ) : ℂ) * Complex.exp
        (((Gammaf (cuvTable G) gam x - Gammaf (cuvTable G) gam (flipAt p x) : ℝ) : ℂ)
          * Complex.I)
      = (((2 : ℝ) ^ n : ℝ) : ℂ) * (-Complex.I) * ((Real.sin (nbrGamma G gam p q) : ℝ) : ℂ)
        * ∏ m ∈ (nbrs G p).erase q, ((Real.cos (nbrGamma G gam p m) : ℝ) : ℂ) := by
  rw [Finset.sum_congr rfl (fun x _ => by
    rw [Gammaf_sub_flip G hs gam hglen p x, pmD_symm p q x])]
  exact sum_pmD_single_flip_phase q p (Ne.symm hpq) (nbrs G p) hadj
    (self_not_mem_nbrs G hs p) (fun m => nbrGamma G gam p m)

/-- Graph form of the double-flip phase sum. -/
lemma graph_sum_flip_pq {n : ℕ} (G : MCGraph n) (hs : IsSimpleEdgeList G)
    (gam : List ℝ) (hglen : gam.length = G.edges.length) (p q : Fin n) (hpq : p ≠ q)
    (hadj : q ∈ nbrs G p) :
    ∑ x : Basis n, ((pmD p q x : ℝ) : ℂ) * Complex.exp
        (((Gammaf (cuvTable G) gam x
            - Gammaf (cuvTable G) gam (flipAt q (flipAt p x)) : ℝ) : ℂ) * Complex.I)
      = (2 : ℂ) ^ n * (1 / 2 : ℂ)
        * ((∏ j ∈ ((nbrs G p).erase q) ∩ ((nbrs G q).erase p),
              ((Real.cos (nbrGamma G gam p j + nbrGamma G gam q j) : ℝ) : ℂ))
            - ∏ j ∈ ((nbrs G p).erase q) ∩ ((nbrs G q).erase p),
              ((Real.cos (nbrGamma G gam p j - nbrGamma G gam q j) : ℝ) : ℂ))
        * ((∏ j ∈ ((nbrs G p).erase q) \ ((nbrs G q).erase p),
              ((Real.cos (nbrGamma G gam p j) : ℝ) : ℂ))
            * ∏ j ∈ ((nbrs G q).erase p) \ ((nbrs G p).erase q),
              ((Real.cos (nbrGamma G gam q j) : ℝ) : ℂ)) := by
  rw [Finset.sum_congr rfl (fun x _ => by
    rw [Gammaf_sub_double_flip G hs gam hglen p q hpq hadj x])]
  exact sum_pmD_double_flip_phase p q hpq ((nbrs G p).erase q) ((nbrs G q).erase p)
    (fun h => self_not_mem_nbrs G hs p (Finset.mem_of_mem_erase h))
    (Finset.not_mem_erase q (nbrs G p))
    (Finset.not_mem_erase p (nbrs G q))
    (fun h => self_not_mem_nbrs G hs q (Finset.mem_of_mem_erase h))
    (fun m => nbrGamma G gam p m) (fun m => nbrGamma G gam q m)

/-- Pointwise expansion of the conjugated, doubly-rotated diagonal state
against the phase-layer state. -/
lemma conj_Mop_pointwise {n : ℕ} (G : MCGraph n) (gam : List ℝ) (p q : Fin n)
    (hpq : p ≠ q) (c₁ c₂ : ℝ) (x : Basis n) :
    (starRingEnd ℂ) (apply_uc (cuvTable G) gam (uniformState n) x)
        * Mop p c₁ (Mop q c₂
            (pmul (pmD p q) (apply_uc (cuvTable G) gam (uniformState n)))) x
      = ((((2 : ℝ) ^ n)⁻¹ : ℝ) : ℂ) * ((Real.cos c₁ : ℂ) * (Real.cos c₂ : ℂ))
          * ((pmD p q x : ℝ) : ℂ)
        + (Complex.I * ((Real.cos c₁ : ℂ) * (Real.sin c₂ : ℂ)) * ((((2 : ℝ) ^ n)⁻¹ : ℝ) : ℂ))
          * (((pmD p q x : ℝ) : ℂ) * Complex.exp
              (((Gammaf (cuvTable G) gam x - Gammaf (cuvTable G) gam (flipAt q x) : ℝ) : ℂ)
                * Complex.I))
        + (Complex.I * ((Real.sin c₁ : ℂ) * (Real.cos c₂ : ℂ)) * ((((2 : ℝ) ^ n)⁻¹ : ℝ) : ℂ))
          * (((pmD p q x : ℝ) : ℂ) * Complex.exp
              (((Gammaf (cuvTable G) gam x - Gammaf (cuvTable G) gam (flipAt p x) : ℝ) : ℂ)
                * Complex.I))
        - (((Real.sin c₁ : ℂ) * (Real.sin c₂ : ℂ)) * ((((2 : ℝ) ^ n)⁻¹ : ℝ) : ℂ))
          * (((pmD p q x : ℝ) : ℂ) * Complex.exp
              (((Gammaf (cuvTable G) gam x
                  - Gammaf (cuvTable G) gam (flipAt q (flipAt p x)) : ℝ) : ℂ) * Complex.I)) := by
  rw [Mop_Mop_pmul_expand p q hpq c₁ c₂ (apply_uc (cuvTable G) gam (uniformState n)) x]
  have h0 := conj_phase_pair_self (cuvTable G) gam x
  have hq' := conj_phase_pair (cuvTable G) gam x (flipAt q x)
  have hp' := conj_phase_pair (cuvTable G) gam x (flipAt p x)
  have hqp := conj_phase_pair (cuvTable G) gam x (flipAt q (flipAt p x))
  linear_combination
    (((pmD p q x : ℝ) : ℂ) * ((Real.cos c₁ : ℂ) * (Real.cos c₂ : ℂ))) * h0
    + (((pmD p q x : ℝ) : ℂ) * Complex.I * (Real.cos c₁ : ℂ) * (Real.sin c₂ : ℂ)) * hq'
    + (((pmD p q x : ℝ) : ℂ) * Complex.I * (Real.sin c₁ : ℂ) * (Real.cos c₂ : ℂ)) * hp'
    - (((pmD p q x : ℝ) : ℂ) * (Real.sin c₁ : ℂ) * (Real.sin c₂ : ℂ)) * hqp

/-- Closed form of the `Z_p Z_q` correlation of the depth-1 state, with the
two effective mixer angles kept symbolic. -/
lemma cinner_Mop_pair_closed {n : ℕ} (G : MCGraph n) (hs : IsSimpleEdgeList G)
    (gam : List ℝ) (hglen : gam.length = G.edges.length) (p q : Fin n) (hpq : p ≠ q)
    (hadj : q ∈ nbrs G p) (c₁ c₂ : ℝ) :
    cinner (apply_uc (cuvTable G) gam (uniformState n))
        (Mop p c₁ (Mop q c₂
          (pmul (pmD p q) (apply_uc (cuvTable G) gam (uniformState n)))))
      = ((Real.cos c₁ * Real.sin c₂ * Real.sin (nbrGamma G gam p q)
            * ∏ m ∈ (nbrs G q).erase p, Real.cos (nbrGamma G gam q m)
          + Real.sin c₁ * Real.cos c₂ * Real.sin (nbrGamma G gam p q)
            * ∏ m ∈ (nbrs G p).erase q, Real.cos (nbrGamma G gam p m)
          - Real.sin c₁ * Real.sin c₂ * (1 / 2)
            * ((∏ j ∈ ((nbrs G p).erase q) ∩ ((nbrs G q).erase p),
                  Real.cos (nbrGamma G gam p j + nbrGamma G gam q j))
               - ∏ j ∈ ((nbrs G p).erase q) ∩ ((nbrs G q).erase p),
                  Real.cos (nbrGamma G gam p j - nbrGamma G gam q j))
            * ((∏ j ∈ ((nbrs G p).erase q) \ ((nbrs G q).erase p),
                  Real.cos (nbrGamma G gam p j))
               * ∏ j ∈ ((nbrs G q).erase p) \ ((nbrs G p).erase q),
                  Real.cos (nbrGamma G gam q j)) : ℝ) : ℂ) := by
  unfold cinner
  rw [Finset.sum_congr rfl (fun x _ => conj_Mop_pointwise G gam p q hpq c₁ c₂ x)]
  rw [Finset.sum_sub_distrib, Finset.sum_add_distrib, Finset.sum_add_distrib]
  simp only [← Finset.mul_sum]
  rw [graph_sum_flip_q G hs gam hglen p q hpq hadj,
    graph_sum_flip_p G hs gam hglen p q hpq hadj,
    graph_sum_flip_pq G hs gam hglen p q hpq hadj]
  have hD0 : ∑ x : Basis n, ((pmD p q x : ℝ) : ℂ) = 0 := by
    rw [show ∑ x : Basis n, ((pmD p q x : ℝ) : ℂ)
        = ((∑ x : Basis n, pmD p q x : ℝ) : ℂ) from by push_cast; rfl]
    rw [sum_pmD_eq_zero p q hpq]
    exact Complex.ofReal_zero
  rw [hD0, nbrGamma_symm G gam q p]
  have hC : ((2 : ℂ) ^ n)⁻¹ * (2 : ℂ) ^ n = 1 :=
    inv_mul_cancel₀ (pow_ne_zero n two_ne_zero)
  have hI2 : Complex.I ^ 2 = -1 := Complex.I_sq
  push_cast
  linear_combination
    (-(Complex.cos (c₁ : ℂ) * Complex.sin (c₂ : ℂ)
          * Complex.sin ((nbrGamma G gam p q : ℝ) : ℂ)
          * ∏ m ∈ (nbrs G q).erase p, Complex.cos ((nbrGamma G gam q m : ℝ) : ℂ)
        + Complex.sin (c₁ : ℂ) * Complex.cos (c₂ : ℂ)
          * Complex.sin ((nbrGamma G gam p q : ℝ) : ℂ)
          * ∏ m ∈ (nbrs G p).erase q, Complex.cos ((nbrGamma G gam p m : ℝ) : ℂ))
        * ((2 : ℂ) ^ n)⁻¹ * (2 : ℂ) ^ n) * hI2
    + (Complex.cos (c₁ : ℂ) * Complex.sin (c₂ : ℂ)
          * Complex.sin ((nbrGamma G gam p q : ℝ) : ℂ)
          * ∏ m ∈ (nbrs G q).erase p, Complex.cos ((nbrGamma G gam q m : ℝ) : ℂ)
        + Complex.sin (c₁ : ℂ) * Complex.cos (c₂ : ℂ)
          * Complex.sin ((nbrGamma G gam p q : ℝ) : ℂ)
          * ∏ m ∈ (nbrs G p).erase q, Complex.cos ((nbrGamma G gam p m : ℝ) : ℂ)) * hC
    - (Complex.sin (c₁ : ℂ) * Complex.sin (c₂ : ℂ) * (1 / 2 : ℂ)
        * ((∏ j ∈ ((nbrs G p).erase q) ∩ ((nbrs G q).erase p),
              Complex.cos ((nbrGamma G gam p j : ℝ) + (nbrGamma G gam q j : ℝ) : ℂ))
            - ∏ j ∈ ((nbrs G p).erase q) ∩ ((nbrs G q).erase p),
              Complex.cos ((nbrGamma G gam p j : ℝ) - (nbrGamma G gam q j : ℝ) : ℂ))
        * (∏ j ∈ ((nbrs G p).erase q) \ ((nbrs G q).erase p),
              Complex.cos ((nbrGamma G gam p j : ℝ) : ℂ))
        * ∏ j ∈ ((nbrs G q).erase p) \ ((nbrs G p).erase q),
              Complex.cos ((nbrGamma G gam q j : ℝ) : ℂ)) * hC

lemma weights_getD_one {n : ℕ} (G : MCGraph n)
    (hwlen : G.weights.length = G.edges.length) (hw1 : ∀ w ∈ G.weights, w = 1)
    (i : Fin G.edges.length) : G.weights.getD i.val 0 = 1 := by
  have hlt : i.val < G.weights.length := by
    rw [hwlen]
    exact i.isLt
  rw [List.getD_eq_getElem?_getD, List.getElem?_eq_getElem hlt, Option.getD_some]
  exact hw1 _ (List.getElem_mem hlt)

lemma weightOf_eq_one {n : ℕ} (G : MCGraph n) (hs : IsSimpleEdgeList G)
    (hwlen : G.weights.length = G.edges.length) (hw1 : ∀ w ∈ G.weights, w = 1)
    (p q : Fin n) (hadj : q ∈ nbrs G p) : weightOf G p q = 1 := by
  rcases (mem_nbrs_iff G p q).mp hadj with ⟨i, hi⟩
  unfold weightOf
  rw [edgeIndex_eq_of G hs i p q hi]
  exact weights_getD_one G hwlen hw1 i

lemma gammaOf_set_eq_nbrGamma {n : ℕ} (G : MCGraph n) (hs : IsSimpleEdgeList G)
    (hwlen : G.weights.length = G.edges.length) (hw1 : ∀ w ∈ G.weights, w = 1)
    (gam : List ℝ) (p q : Fin n) (hadj : q ∈ nbrs G p) :
    gammaOf (setGammaAttr G gam) p q = nbrGamma G gam p q := by
  rcases (mem_nbrs_iff G p q).mp hadj with ⟨i, hi⟩
  rw [gammaOf_setGammaAttr_eq G hs hwlen gam i p q hi,
    nbrGamma_eq_of G hs gam i p q hi, weights_getD_one G hwlen hw1 i, mul_one]

/-- Per-edge expectation of the depth-1 simulated state, in closed form. -/
lemma per_edge_sim {n : ℕ} (G : MCGraph n) (hs : IsSimpleEdgeList G)
    (gam : List ℝ) (hglen : gam.length = G.edges.length) (bet : List ℝ)
    (p q : Fin n) (hpq : p ≠ q) (hadj : q ∈ nbrs G p) :
    ∑ x : Basis n, check_edge_cut x p q * Complex.normSq
        (apply_ub_individual bet (apply_uc (cuvTable G) gam (uniformState n))
          flipAt bitAt x)
      = 1 / 2
        + 1 / 2 * Real.sin (nbrGamma G gam p q)
            * (Real.sin (2 * bet.getD p.val 0) * Real.cos (2 * bet.getD q.val 0)
                * ∏ m ∈ (nbrs G p).erase q, Real.cos (nbrGamma G gam p m)
              + Real.cos (2 * bet.getD p.val 0) * Real.sin (2 * bet.getD q.val 0)
                * ∏ m ∈ (nbrs G q).erase p, Real.cos (nbrGamma G gam q m))
        + 1 / 4 * Real.sin (2 * bet.getD p.val 0) * Real.sin (2 * bet.getD q.val 0)
            * ((∏ j ∈ ((nbrs G p).erase q) ∩ ((nbrs G q).erase p),
                  Real.cos (nbrGamma G gam p j + nbrGamma G gam q j))
               - ∏ j ∈ ((nbrs G p).erase q) ∩ ((nbrs G q).erase p),
                  Real.cos (nbrGamma G gam p j - nbrGamma G gam q j))
            * ((∏ j ∈ ((nbrs G p).erase q) \ ((nbrs G q).erase p),
                  Real.cos (nbrGamma G gam p j))
               * ∏ j ∈ ((nbrs G q).erase p) \ ((nbrs G p).erase q),
                  Real.cos (nbrGamma G gam q j)) := by
  have hsplit : ∀ x : Basis n,
      check_edge_cut x p q * Complex.normSq
          (apply_ub_individual bet (apply_uc (cuvTable G) gam (uniformState n))
            flipAt bitAt x)
      = 1 / 2 * Complex.normSq
            (apply_ub_individual bet (apply_uc (cuvTable G) gam (uniformState n))
              flipAt bitAt x)
        - 1 / 2 * (pmD p q x * Complex.normSq
            (apply_ub_individual bet (apply_uc (cuvTable G) gam (uniformState n))
              flipAt bitAt x)) := by
    intro x
    rw [check_edge_cut_eq_pmD]
    ring
  rw [Finset.sum_congr rfl (fun x _ => hsplit x), Finset.sum_sub_distrib,
    ← Finset.mul_sum, ← Finset.mul_sum]
  have hnorm : ∑ x : Basis n, Complex.normSq
      (apply_ub_individual bet (apply_uc (cuvTable G) gam (uniformState n))
        flipAt bitAt x) = 1 := by
    rw [sum_normSq_apply_ub_individual bet _ flipAt bitAt flipAt_involutive]
    rw [Finset.sum_congr rfl
      (fun x _ => normSq_apply_uc (cuvTable G) gam (uniformState n) x)]
    exact sum_normSq_uniform n
  have hSc : ((∑ x : Basis n, pmD p q x * Complex.normSq
        (apply_ub_individual bet (apply_uc (cuvTable G) gam (uniformState n))
          flipAt bitAt x) : ℝ) : ℂ)
      = ((-(Real.cos (2 * bet.getD p.val 0) * Real.sin (2 * bet.getD q.val 0)
              * Real.sin (nbrGamma G gam p q)
              * ∏ m ∈ (nbrs G q).erase p, Real.cos (nbrGamma G gam q m))
          - Real.sin (2 * bet.getD p.val 0) * Real.cos (2 * bet.getD q.val 0)
              * Real.sin (nbrGamma G gam p q)
              * ∏ m ∈ (nbrs G p).erase q, Real.cos (nbrGamma G gam p m)
          - Real.sin (2 * bet.getD p.val 0) * Real.sin (2 * bet.getD q.val 0) * (1 / 2)
            * ((∏ j ∈ ((nbrs G p).erase q) ∩ ((nbrs G q).erase p),
                  Real.cos (nbrGamma G gam p j + nbrGamma G gam q j))
               - ∏ j ∈ ((nbrs G p).erase q) ∩ ((nbrs G q).erase p),
                  Real.cos (nbrGamma G gam p j - nbrGamma G gam q j))
            * ((∏ j ∈ ((nbrs G p).erase q) \ ((nbrs G q).erase p),
                  Real.cos (nbrGamma G gam p j))
               * ∏ j ∈ ((nbrs G q).erase p) \ ((nbrs G p).erase q),
                  Real.cos (nbrGamma G gam q j)) : ℝ) : ℂ) := by
    rw [← cinner_pmul_self (pmD p q)
      (apply_ub_individual bet (apply_uc (cuvTable G) gam (uniformState n)) flipAt bitAt)]
    rw [apply_ub_eq_MopFold bet (apply_uc (cuvTable G) gam (uniformState n))]
    rw [cinner_pmD_MopFold_reduction p q hpq (fun r => bet.getD r.val 0)
      (apply_uc (cuvTable G) gam (uniformState n))]
    rw [cinner_Mop_pair_closed G hs gam hglen p q hpq hadj
      (-(2 * bet.getD p.val 0)) (-(2 * bet.getD q.val 0))]
    rw [Complex.ofReal_inj]
    rw [Real.cos_neg, Real.sin_neg, Real.cos_neg, Real.sin_neg]
    ring
  have hS := Complex.ofReal_inj.mp hSc
  rw [hS, hnorm]
  ring

/-- The per-edge contribution of the closed-form depth-1 evaluator
(the body of the sum in `run_ma_qaoa_analytical_p1`). -/
def anaTerm {n : ℕ} (G : MCGraph n) (betas : List ℝ) (uv : Fin n × Fin n) : ℝ :=
  let u := uv.1
  let v := uv.2
  let w := weightOf G u v
  let d := (nbrs G u).erase v
  let e := (nbrs G v).erase u
  let f := d ∩ e
  let cos_prod_d := ∏ m ∈ d \ f, Real.cos (gammaOf G u m)
  let cos_prod_e := ∏ m ∈ e \ f, Real.cos (gammaOf G v m)
  if f.card ≠ 0 then
    w / 2
      + w / 4 * Real.sin (2 * betas.getD u.val 0) * Real.sin (2 * betas.getD v.val 0)
        * cos_prod_d * cos_prod_e
        * ((∏ m ∈ f, Real.cos (gammaOf G u m + gammaOf G v m))
           - ∏ m ∈ f, Real.cos (gammaOf G u m - gammaOf G v m))
      + w / 2 * Real.sin (gammaOf G u v)
        * (Real.sin (2 * betas.getD u.val 0) * Real.cos (2 * betas.getD v.val 0)
            * (cos_prod_d * ∏ m ∈ f, Real.cos (gammaOf G u m))
          + Real.cos (2 * betas.getD u.val 0) * Real.sin (2 * betas.getD v.val 0)
            * (cos_prod_e * ∏ m ∈ f, Real.cos (gammaOf G v m)))
  else
    w / 2
      + w / 2 * Real.sin (gammaOf G u v)
        * (Real.sin (2 * betas.getD u.val 0) * Real.cos (2 * betas.getD v.val 0) * cos_prod_d
          + Real.cos (2 * betas.getD u.val 0) * Real.sin (2 * betas.getD v.val 0)
            * cos_prod_e)

lemma run_ana_p1_eq_map {n : ℕ} (angles : List ℝ) (graph : MCGraph n) :
    (run_ma_qaoa_analytical_p1 angles graph none).1
      = (graph.edges.map (anaTerm (setGammaAttr graph (angles.take graph.edges.length))
          (angles.drop graph.edges.length))).sum := rfl

/-- On a unit-weight simple graph, the closed-form per-edge term equals the
per-edge expectation of the depth-1 simulated state. -/
lemma anaTerm_eq_sim {n : ℕ} (G : MCGraph n) (hs : IsSimpleEdgeList G)
    (hwlen : G.weights.length = G.edges.length) (hw1 : ∀ w ∈ G.weights, w = 1)
    (gam : List ℝ) (hglen : gam.length = G.edges.length) (bet : List ℝ)
    (p q : Fin n) (hpq : p ≠ q) (hadj : q ∈ nbrs G p) :
    anaTerm (setGammaAttr G gam) bet (p, q)
      = ∑ x : Basis n, check_edge_cut x p q * Complex.normSq
          (apply_ub_individual bet (apply_uc (cuvTable G) gam (uniformState n))
            flipAt bitAt x) := by
  rw [per_edge_sim G hs gam hglen bet p q hpq hadj]
  show (if ((nbrs G p).erase q ∩ (nbrs G q).erase p).card ≠ 0 then
      weightOf (setGammaAttr G gam) p q / 2
        + weightOf (setGammaAttr G gam) p q / 4
          * Real.sin (2 * bet.getD p.val 0) * Real.sin (2 * bet.getD q.val 0)
          * (∏ m ∈ ((nbrs G p).erase q) \ ((nbrs G p).erase q ∩ (nbrs G q).erase p),
              Real.cos (gammaOf (setGammaAttr G gam) p m))
          * (∏ m ∈ ((nbrs G q).erase p) \ ((nbrs G p).erase q ∩ (nbrs G q).erase p),
              Real.cos (gammaOf (setGammaAttr G gam) q m))
          * ((∏ m ∈ (nbrs G p).erase q ∩ (nbrs G q).erase p,
                Real.cos (gammaOf (setGammaAttr G gam) p m + gammaOf (setGammaAttr G gam) q m))
             - ∏ m ∈ (nbrs G p).erase q ∩ (nbrs G q).erase p,
                Real.cos (gammaOf (setGammaAttr G gam) p m - gammaOf (setGammaAttr G gam) q m))
        + weightOf (setGammaAttr G gam) p q / 2 * Real.sin (gammaOf (setGammaAttr G gam) p q)
          * (Real.sin (2 * bet.getD p.val 0) * Real.cos (2 * bet.getD q.val 0)
              * ((∏ m ∈ ((nbrs G p).erase q) \ ((nbrs G p).erase q ∩ (nbrs G q).erase p),
                    Real.cos (gammaOf (setGammaAttr G gam) p m))
                  * ∏ m ∈ (nbrs G p).erase q ∩ (nbrs G q).erase p,
                      Real.cos (gammaOf (setGammaAttr G gam) p m))
            + Real.cos (2 * bet.getD p.val 0) * Real.sin (2 * bet.getD q.val 0)
              * ((∏ m ∈ ((nbrs G q).erase p) \ ((nbrs G p).erase q ∩ (nbrs G q).erase p),
                    Real.cos (gammaOf (setGammaAttr G gam) q m))
                  * ∏ m ∈ (nbrs G p).erase q ∩ (nbrs G q).erase p,
                      Real.cos (gammaOf (setGammaAttr G gam) q m)))
    else
      weightOf (setGammaAttr G gam) p q / 2
        + weightOf (setGammaAttr G gam) p q / 2 * Real.sin (gammaOf (setGammaAttr G gam) p q)
          * (Real.sin (2 * bet.getD p.val 0) * Real.cos (2 * bet.getD q.val 0)
              * ∏ m ∈ ((nbrs G p).erase q) \ ((nbrs G p).erase q ∩ (nbrs G q).erase p),
                  Real.cos (gammaOf (setGammaAttr G gam) p m)
            + Real.cos (2 * bet.getD p.val 0) * Real.sin (2 * bet.getD q.val 0)
              * ∏ m ∈ ((nbrs G q).erase p) \ ((nbrs G p).erase q ∩ (nbrs G q).erase p),
                  Real.cos (gammaOf (setGammaAttr G gam) q m))) = _
  have hgp : ∀ m ∈ nbrs G p, gammaOf (setGammaAttr G gam) p m = nbrGamma G gam p m :=
    fun m hm => gammaOf_set_eq_nbrGamma G hs hwlen hw1 gam p m hm
  have hgq : ∀ m ∈ nbrs G q, gammaOf (setGammaAttr G gam) q m = nbrGamma G gam q m :=
    fun m hm => gammaOf_set_eq_nbrGamma G hs hwlen hw1 gam q m hm
  have hw' : weightOf (setGammaAttr G gam) p q = 1 :=
    weightOf_eq_one G hs hwlen hw1 p q hadj
  have hmem_d : ∀ m ∈ (nbrs G p).erase q, m ∈ nbrs G p := fun m hm =>
    Finset.mem_of_mem_erase hm
  have hmem_e : ∀ m ∈ (nbrs G q).erase p, m ∈ nbrs G q := fun m hm =>
    Finset.mem_of_mem_erase hm
  have hPd : ∏ m ∈ ((nbrs G p).erase q) \ ((nbrs G p).erase q ∩ (nbrs G q).erase p),
        Real.cos (gammaOf (setGammaAttr G gam) p m)
      = ∏ m ∈ ((nbrs G p).erase q) \ ((nbrs G p).erase q ∩ (nbrs G q).erase p),
        Real.cos (nbrGamma G gam p m) :=
    Finset.prod_congr rfl (fun m hm => by
      rw [hgp m (hmem_d m (Finset.mem_sdiff.mp hm).1)])
  have hPe : ∏ m ∈ ((nbrs G q).erase p) \ ((nbrs G p).erase q ∩ (nbrs G q).erase p),
        Real.cos (gammaOf (setGammaAttr G gam) q m)
      = ∏ m ∈ ((nbrs G q).erase p) \ ((nbrs G p).erase q ∩ (nbrs G q).erase p),
        Real.cos (nbrGamma G gam q m) :=
    Finset.prod_congr rfl (fun m hm => by
      rw [hgq m (hmem_e m (Finset.mem_sdiff.mp hm).1)])
  have hFsum : ∏ m ∈ (nbrs G p).erase q ∩ (nbrs G q).erase p,
        Real.cos (gammaOf (setGammaAttr G gam) p m + gammaOf (setGammaAttr G gam) q m)
      = ∏ m ∈ (nbrs G p).erase q ∩ (nbrs G q).erase p,
        Real.cos (nbrGamma G gam p m + nbrGamma G gam q m) :=
    Finset.prod_congr rfl (fun m hm => by
      rw [hgp m (hmem_d m (Finset.mem_inter.mp hm).1),
        hgq m (hmem_e m (Finset.mem_inter.mp hm).2)])
  have hFdiff : ∏ m ∈ (nbrs G p).erase q ∩ (nbrs G q).erase p,
        Real.cos (gammaOf (setGammaAttr G gam) p m - gammaOf (setGammaAttr G gam) q m)
      = ∏ m ∈ (nbrs G p).erase q ∩ (nbrs G q).erase p,
        Real.cos (nbrGamma G gam p m - nbrGamma G gam q m) :=
    Finset.prod_congr rfl (fun m hm => by
      rw [hgp m (hmem_d m (Finset.mem_inter.mp hm).1),
        hgq m (hmem_e m (Finset.mem_inter.mp hm).2)])
  have hFp : ∏ m ∈ (nbrs G p).erase q ∩ (nbrs G q).erase p,
        Real.cos (gammaOf (setGammaAttr G gam) p m)
      = ∏ m ∈ (nbrs G p).erase q ∩ (nbrs G q).erase p,
        Real.cos (nbrGamma G gam p m) :=
    Finset.prod_congr rfl (fun m hm => by
      rw [hgp m (hmem_d m (Finset.mem_inter.mp hm).1)])
  have hFq : ∏ m ∈ (nbrs G p).erase q ∩ (nbrs G q).erase p,
        Real.cos (gammaOf (setGammaAttr G gam) q m)
      = ∏ m ∈ (nbrs G p).erase q ∩ (nbrs G q).erase p,
        Real.cos (nbrGamma G gam q m) :=
    Finset.prod_congr rfl (fun m hm => by
      rw [hgq m (hmem_e m (Finset.mem_inter.mp hm).2)])
  rw [hw', gammaOf_set_eq_nbrGamma G hs hwlen hw1 gam p q hadj]
  by_cases hf : ((nbrs G p).erase q ∩ (nbrs G q).erase p).card ≠ 0
  · rw [if_pos hf, hPd, hPe, hFsum, hFdiff, hFp, hFq]
    have hU : (∏ m ∈ ((nbrs G p).erase q) \ ((nbrs G p).erase q ∩ (nbrs G q).erase p),
          Real.cos (nbrGamma G gam p m))
        * ∏ m ∈ (nbrs G p).erase q ∩ (nbrs G q).erase p, Real.cos (nbrGamma G gam p m)
        = ∏ m ∈ (nbrs G p).erase q, Real.cos (nbrGamma G gam p m) :=
      Finset.prod_sdiff Finset.inter_subset_left
    have hV : (∏ m ∈ ((nbrs G q).erase p) \ ((nbrs G p).erase q ∩ (nbrs G q).erase p),
          Real.cos (nbrGamma G gam q m))
        * ∏ m ∈ (nbrs G p).erase q ∩ (nbrs G q).erase p, Real.cos (nbrGamma G gam q m)
        = ∏ m ∈ (nbrs G q).erase p, Real.cos (nbrGamma G gam q m) :=
      Finset.prod_sdiff Finset.inter_subset_right
    rw [← hU, ← hV]
    rw [← Finset.sdiff_inter_self_left ((nbrs G p).erase q) ((nbrs G q).erase p)]
    rw [← Finset.sdiff_inter_self_right ((nbrs G q).erase p) ((nbrs G p).erase q)]
    ring
  · rw [if_neg hf, hPd, hPe]
    have hfe : (nbrs G p).erase q ∩ (nbrs G q).erase p = ∅ :=
      Finset.card_eq_zero.mp (not_not.mp hf)
    rw [hfe]
    simp only [Finset.sdiff_empty, Finset.prod_empty]
    ring

lemma list_range_map_sum {M : Type*} [AddCommMonoid M] (f : ℕ → M) (E : ℕ) :
    ((List.range E).map f).sum = ∑ i ∈ Finset.range E, f i := by
  induction E with
  | zero => simp
  | succ E ih =>
      rw [List.range_succ, List.map_append, List.sum_append, Finset.sum_range_succ, ih]
      simp

lemma list_map_sum_eq_fin_sum {α : Type*} {M : Type*} [AddCommMonoid M]
    (l : List α) (g : α → M) :
    (l.map g).sum = ∑ i : Fin l.length, g (l.get i) := by
  induction l with
  | nil => simp
  | cons x xs ih =>
      rw [List.map_cons, List.sum_cons]
      show g x + (List.map g xs).sum = ∑ i : Fin (xs.length + 1), g ((x :: xs).get i)
      rw [Fin.sum_univ_succ, ih]
      rfl

lemma simStateAfter_p1 {n : ℕ} (cuv : List (Basis n → ℝ)) (angles : List ℝ) :
    simStateAfter angles 1 cuv flipAt bitAt 1
      = apply_ub_individual (angles.drop cuv.length)
          (apply_uc cuv (angles.take cuv.length) (uniformState n)) flipAt bitAt := by
  rw [simStateAfter_one]
  unfold simLayer
  simp [List.take_length]

lemma calc_expectation_real {n : ℕ} (ψ : Basis n → ℂ) (w : Basis n → ℝ) :
    calc_expectation_diagonal ψ w = ∑ x : Basis n, w x * Complex.normSq (ψ x) := by
  unfold calc_expectation_diagonal
  rw [show (∑ x : Basis n, (starRingEnd ℂ) (ψ x) * ((w x : ℂ) * ψ x))
      = cinner ψ (pmul w ψ) from rfl]
  rw [cinner_pmul_self, Complex.ofReal_re]

/-- The depth-1 equivalence on unit-weight simple graphs: the closed-form
evaluator of qaoa_core.py agrees exactly with the state-vector simulation. -/
lemma ma_p1_equiv {n : ℕ} (G : MCGraph n) (hs : IsSimpleEdgeList G)
    (hwlen : G.weights.length = G.edges.length) (hw1 : ∀ w ∈ G.weights, w = 1)
    (angles : List ℝ) (hE : G.edges.length ≤ angles.length) :
    (run_ma_qaoa_analytical_p1 angles G none).1
      = run_ma_qaoa_simulation angles 1 (cuvTable G) flipAt bitAt none := by
  have hglen : (angles.take G.edges.length).length = G.edges.length := by
    rw [List.length_take]
    omega
  have hstep : ∀ i : Fin G.edges.length,
      anaTerm (setGammaAttr G (angles.take G.edges.length))
          (angles.drop G.edges.length) (G.edges.get i)
        = ∑ x : Basis n, check_edge_cut x (G.edges.get i).1 (G.edges.get i).2
            * Complex.normSq (apply_ub_individual (angles.drop G.edges.length)
                (apply_uc (cuvTable G) (angles.take G.edges.length) (uniformState n))
                flipAt bitAt x) := by
    intro i
    have hpq : (G.edges.get i).1 ≠ (G.edges.get i).2 :=
      hs.no_loop _ (List.get_mem _ _ i.isLt)
    have hadj : (G.edges.get i).2 ∈ nbrs G (G.edges.get i).1 :=
      (mem_nbrs_iff G _ _).mpr ⟨i, Or.inl rfl⟩
    exact anaTerm_eq_sim G hs hwlen hw1 (angles.take G.edges.length) hglen
      (angles.drop G.edges.length) (G.edges.get i).1 (G.edges.get i).2 hpq hadj
  have hsim : run_ma_qaoa_simulation angles 1 (cuvTable G) flipAt bitAt none
      = ∑ i : Fin G.edges.length, ∑ x : Basis n,
          check_edge_cut x (G.edges.get i).1 (G.edges.get i).2
            * Complex.normSq (apply_ub_individual (angles.drop G.edges.length)
                (apply_uc (cuvTable G) (angles.take G.edges.length) (uniformState n))
                flipAt bitAt x) := by
    rw [show run_ma_qaoa_simulation angles 1 (cuvTable G) flipAt bitAt none
        = calc_expectation_diagonal
            (simStateAfter angles 1 (cuvTable G) flipAt bitAt 1)
            (fun x => ((List.range (cuvTable G).length).map
              (fun i => (cuvTable G).getD i (fun _ => 0) x)).sum) from rfl]
    rw [simStateAfter_p1, calc_expectation_real, cuvTable_length]
    have hW : ∀ x : Basis n, ((List.range G.edges.length).map
          (fun i => (cuvTable G).getD i (fun _ => 0) x)).sum
        = ∑ i : Fin G.edges.length,
            check_edge_cut x (G.edges.get i).1 (G.edges.get i).2 := by
      intro x
      rw [list_range_map_sum]
      rw [← Fin.sum_univ_eq_sum_range (fun i => (cuvTable G).getD i (fun _ => 0) x)]
      exact Finset.sum_congr rfl (fun i _ => cuvTable_getD_apply G i x)
    rw [Finset.sum_congr rfl (fun x _ => by rw [hW x, Finset.sum_mul])]
    exact Finset.sum_comm
  rw [run_ana_p1_eq_map, hsim, list_map_sum_eq_fin_sum]
  exact Finset.sum_congr rfl (fun i _ => hstep i)

/-- Closed-form value on the single-edge graph with weight `w` at all-zero
angles: the evaluator returns `w/2`. -/
lemma ana_K2_zero (w : ℝ) :
    (run_ma_qaoa_analytical_p1 [0, 0, 0]
        (⟨[((0 : Fin 2), (1 : Fin 2))], [w], []⟩ : MCGraph 2) none).1 = w / 2 := by
  have h1 : (run_ma_qaoa_analytical_p1 [0, 0, 0]
        (⟨[((0 : Fin 2), (1 : Fin 2))], [w], []⟩ : MCGraph 2) none).1
      = ([anaTerm (setGammaAttr (⟨[((0 : Fin 2), (1 : Fin 2))], [w], []⟩ : MCGraph 2) [0])
          [0, 0] ((0 : Fin 2), (1 : Fin 2))] : List ℝ).sum := by
    rw [run_ana_p1_eq_map]
    rfl
  rw [h1, List.sum_singleton]
  have hD : (nbrs (setGammaAttr
        (⟨[((0 : Fin 2), (1 : Fin 2))], [w], []⟩ : MCGraph 2) [0]) 0).erase 1 = ∅ := by
    show (nbrs (⟨[((0 : Fin 2), (1 : Fin 2))], [], []⟩ : MCGraph 2) 0).erase 1 = ∅
    decide
  have hE2 : (nbrs (setGammaAttr
        (⟨[((0 : Fin 2), (1 : Fin 2))], [w], []⟩ : MCGraph 2) [0]) 1).erase 0 = ∅ := by
    show (nbrs (⟨[((0 : Fin 2), (1 : Fin 2))], [], []⟩ : MCGraph 2) 1).erase 0 = ∅
    decide
  have hwOf : weightOf (setGammaAttr
        (⟨[((0 : Fin 2), (1 : Fin 2))], [w], []⟩ : MCGraph 2) [0]) 0 1 = w := by
    unfold weightOf
    rw [show edgeIndex (setGammaAttr
        (⟨[((0 : Fin 2), (1 : Fin 2))], [w], []⟩ : MCGraph 2) [0]) 0 1
      = edgeIndex (⟨[((0 : Fin 2), (1 : Fin 2))], [], []⟩ : MCGraph 2) 0 1 from rfl]
    rw [show edgeIndex (⟨[((0 : Fin 2), (1 : Fin 2))], [], []⟩ : MCGraph 2) 0 1
      = some 0 from by decide]
    rfl
  unfold anaTerm
  simp only [hD, hE2, hwOf]
  norm_num [Real.sin_zero]

/-- C1 counterexample: on the single-edge graph with edge weight `2` and
all-zero angles, the closed-form evaluator returns `1` (it scales by the
edge weight) while the state-vector simulation returns `1/2` (its cut
table `check_edge_cut` is weight-blind), so the two entry points disagree
far beyond the `1e-9` tolerance on non-unit-weight graphs. -/
theorem C1_weighted_graph_counterexample :
    (run_ma_qaoa_analytical_p1 [0, 0, 0]
        (⟨[((0 : Fin 2), (1 : Fin 2))], [2], []⟩ : MCGraph 2) none).1
      ≠ run_ma_qaoa_simulation [0, 0, 0] 1
          (cuvTable (⟨[((0 : Fin 2), (1 : Fin 2))], [2], []⟩ : MCGraph 2))
          flipAt bitAt none := by
  have h2 := ana_K2_zero 2
  have h1 := ana_K2_zero 1
  have hs1 : IsSimpleEdgeList (⟨[((0 : Fin 2), (1 : Fin 2))], [1], []⟩ : MCGraph 2) :=
    ⟨by decide, fun i j _ => (Subsingleton.elim : ∀ a b : Fin 1, a = b) i j⟩
  have hsim := ma_p1_equiv (⟨[((0 : Fin 2), (1 : Fin 2))], [1], []⟩ : MCGraph 2) hs1 rfl
    (by intro x hx; simpa using hx) [0, 0, 0] (by simp)
  rw [h1] at hsim
  rw [h2]
  intro hcontra
  have hbad : (2 : ℝ) / 2 = 1 / 2 := hcontra.trans hsim.symm
  norm_num at hbad

/-- C1 (amended): the claimed depth-1 equivalence between the closed-form
evaluator `run_ma_qaoa_analytical_p1` and the state-vector simulation
`run_ma_qaoa_simulation`, for angle vectors of length `num_edges + num_nodes`
and for the standard 2-angle layout via `run_qaoa_analytical_p1` /
`run_qaoa_simulation`, holds with exact equality (hence within any
tolerance) on simple graphs **all of whose edge weights are 1** — the
counterexample shows it fails on weighted graphs, because the simulation's
cut table ignores weights while the evaluator scales by them. -/
theorem C1_p1_equivalence_unit_weights {n : ℕ} (G : MCGraph n)
    (hs : IsSimpleEdgeList G) (hwlen : G.weights.length = G.edges.length)
    (hw1 : ∀ w ∈ G.weights, w = 1) (angles : List ℝ)
    (hlen : angles.length = G.edges.length + n) (gamma beta : ℝ) :
    (run_ma_qaoa_analytical_p1 angles G none).1
      = run_ma_qaoa_simulation angles 1 (cuvTable G) flipAt bitAt none
    ∧ (run_qaoa_analytical_p1 [gamma, beta] G none).1
      = run_qaoa_simulation [gamma, beta] 1 (cuvTable G) flipAt bitAt none := by
  constructor
  · exact ma_p1_equiv G hs hwlen hw1 angles (by omega)
  · show (run_ma_qaoa_analytical_p1
        (convert_angles_qaoa_to_multi_angle [gamma, beta] G.edges.length n) G none).1
      = run_ma_qaoa_simulation
          (convert_angles_qaoa_to_multi_angle [gamma, beta] (cuvTable G).length n) 1
          (cuvTable G) flipAt bitAt none
    rw [cuvTable_length]
    apply ma_p1_equiv G hs hwlen hw1
    have hc : (convert_angles_qaoa_to_multi_angle [gamma, beta] G.edges.length n).length
        = G.edges.length + n := by
      simp [convert_angles_qaoa_to_multi_angle]
    omega

/-- C1 witness: the amended equivalence instantiated on the unit-weight
single-edge graph with the angle vector `[1, 2, 3]` and standard angles
`(1, 2)`. -/
theorem C1_p1_equivalence_unit_weights_witness :
    (run_ma_qaoa_analytical_p1 [1, 2, 3]
        (⟨[((0 : Fin 2), (1 : Fin 2))], [1], []⟩ : MCGraph 2) none).1
      = run_ma_qaoa_simulation [1, 2, 3] 1
          (cuvTable (⟨[((0 : Fin 2), (1 : Fin 2))], [1], []⟩ : MCGraph 2))
          flipAt bitAt none
    ∧ (run_qaoa_analytical_p1 [1, 2]
        (⟨[((0 : Fin 2), (1 : Fin 2))], [1], []⟩ : MCGraph 2) none).1
      = run_qaoa_simulation [1, 2] 1
          (cuvTable (⟨[((0 : Fin 2), (1 : Fin 2))], [1], []⟩ : MCGraph 2))
          flipAt bitAt none :=
  C1_p1_equivalence_unit_weights
    (⟨[((0 : Fin 2), (1 : Fin 2))], [1], []⟩ : MCGraph 2)
    ⟨by decide, fun i j _ => (Subsingleton.elim : ∀ a b : Fin 1, a = b) i j⟩ rfl
    (by intro x hx; simpa using hx) [1, 2, 3] rfl 1 2

end

end MaQaoa
